import Mathlib

/-!
Verification of the directory-synchronization engine in `src/util/fs.js`
(diff planner `buildActionsForCopy`/`build`, executor `copyBulk`, symlink
materializer `symlink`, and the recursive lister `walk`).

Modelling conventions (shallow embedding):
* Paths are modelled as lists of components (`Path := List String`);
  `path.join(dir, name)` is `dir ++ [name]`, `dest.split(path.sep)` is the
  component list itself.
* The mock filesystem is an association list from paths to `Stat` records.
  `readdir` is derived from the keys (the immediate children of a path),
  `readlink` is the `target` field of a symlink's stat, and `exists(p)` is
  modelled as `lstat` success (the mock does not distinguish dangling
  symlinks).  `rimraf`-style `unlink` removes the whole subtree; `mkdirp`
  inserts directory entries for every missing prefix.
* The planner's JavaScript callbacks (`onDone`, `onFresh`) and the
  `events.onStart` / `events.onProgress` callbacks are modelled as first-order
  values whose invocations append observable events to a trace; the per-parent
  `remaining` counters captured by the `onDone` closures of directory children
  become an explicit counter table in the planner state.
* `await`-sequencing is embedded as sequential composition (the engine runs
  cooperative single-threaded concurrency; the batches of 4 are drained in
  order, which is the canonical schedule).
* All recursion that is data-dependent in the source (queue draining, the
  mode-mismatch re-run, symlink retry, `walk`) is given explicit fuel; running
  out of fuel is an error, never silent success.
-/

namespace YarnFs

/-- A filesystem path, as the list of its `path.sep`-separated components. -/
abbrev Path := List String

/-- The kind of a filesystem node as discriminated by
`isFile` / `isDirectory` / `isSymbolicLink` (`other` covers devices, FIFOs,
sockets, i.e. the `unsure how to copy this` case). -/
inductive FKind
  | file
  | dir
  | symlink
  | other
deriving DecidableEq

/-- The result of `fs.lstat`: kind, permission mode, size, access and
modification times, and (for symlinks) the link text returned by
`fs.readlink`. -/
structure Stat where
  kind : FKind
  mode : Nat
  size : Nat
  atime : Nat
  mtime : Nat
  target : Path := []
deriving DecidableEq

/-- The mock filesystem: an association list from absolute paths to stats.
Insertion order doubles as `readdir` order. -/
abbrev FSMap := List (Path × Stat)

/-- Boolean membership for paths in a list (JS `Set.has`). -/
def memP (p : Path) (l : List Path) : Bool :=
  l.any (fun q => decide (q = p))

theorem memP_iff (p : Path) (l : List Path) : memP p l = true ↔ p ∈ l := by
  simp [memP, List.any_eq_true]

/-- JS `Set.add`: append if absent, keep insertion order otherwise. -/
def addSet (l : List Path) (p : Path) : List Path :=
  if memP p l then l else l ++ [p]

theorem mem_addSet (l : List Path) (p q : Path) :
    q ∈ addSet l p ↔ q ∈ l ∨ q = p := by
  unfold addSet
  split
  · rename_i h
    rw [memP_iff] at h
    constructor
    · exact Or.inl
    · rintro (hq | rfl)
      · exact hq
      · exact h
  · simp

theorem self_mem_addSet (l : List Path) (p : Path) : p ∈ addSet l p := by
  rw [mem_addSet]; exact Or.inr rfl

/-- `fs.lstat` on the mock filesystem (`none` = `ENOENT`). -/
def lstatFS (fs : FSMap) (p : Path) : Option Stat :=
  (fs.find? (fun e => decide (e.1 = p))).map (fun e => e.2)

/-- `fs.exists` (modelled as `lstat` success, see header). -/
def existsFS (fs : FSMap) (p : Path) : Bool :=
  (lstatFS fs p).isSome

/-- If `k` is `p ++ [n]`, return `n` (used to derive `readdir` from keys). -/
def childName (p : Path) (k : Path) : Option String :=
  if k ≠ [] ∧ k.dropLast = p then k.getLast? else none

/-- `fs.readdir p`: the names of the immediate children of `p` present in the
map, in insertion order. -/
def readdirFS (fs : FSMap) (p : Path) : List String :=
  (fs.map Prod.fst).filterMap (childName p)

/-- `rimraf`: remove `p` and everything below it. -/
def unlinkFS (fs : FSMap) (p : Path) : FSMap :=
  fs.filter (fun e => decide (¬ p.IsPrefix e.1))

/-- The stat that `mkdirp` gives to a directory it creates. -/
def mkdirStat : Stat :=
  { kind := FKind.dir, mode := 0, size := 0, atime := 0, mtime := 0 }

/-- Insert `p.take k` as a fresh directory if missing, for `k = 1 .. n`. -/
def mkdirpFrom (fs : FSMap) (p : Path) : Nat → FSMap
  | 0 => fs
  | Nat.succ n =>
      let fs' := mkdirpFrom fs p n
      if existsFS fs' (p.take (Nat.succ n)) then fs'
      else fs' ++ [(p.take (Nat.succ n), mkdirStat)]

/-- `mkdirp p`: create `p` and all missing ancestors as directories. -/
def mkdirpFS (fs : FSMap) (p : Path) : FSMap :=
  mkdirpFrom fs p p.length

theorem lstat_unlinkFS_of_pre (fs : FSMap) (p q : Path) (h : p.IsPrefix q) :
    lstatFS (unlinkFS fs p) q = none := by
  unfold lstatFS unlinkFS
  cases hf : List.find? (fun e => decide (e.1 = q))
      (List.filter (fun e => decide (¬ p.IsPrefix e.1)) fs) with
  | none => rfl
  | some e =>
      have h1 : e.1 = q := by
        have := List.find?_some hf
        simpa using this
      have h2 := List.mem_filter.mp (List.mem_of_find?_eq_some hf)
      obtain ⟨_, hnp⟩ := h2
      rw [decide_eq_true_eq, h1] at hnp
      exact absurd h hnp

/-! ## Observable events

Callback invocations and effectful filesystem primitives of the engine are
recorded in a chronological trace. -/

/-- Observable events of one synchronization call. -/
inductive Ev
  | start (n : Nat)                        -- `events.onStart(n)`
  | progress (dest : Path)                 -- `events.onProgress(dest)`
  | fresh (id : Nat)                       -- a caller-supplied `onFresh` fired
  | userDone (id : Nat)                    -- a caller-supplied `onDone` fired
  | unlinkE (p : Path)                     -- `unlink(p)` (rimraf)
  | accessE (p : Path) (mode : Nat)        -- `access(p, mode)` (a check only)
  | readE (p : Path)                       -- `fs.createReadStream(p)`
  | writeE (p : Path) (mode : Nat)         -- `fs.createWriteStream(p, {mode})`
  | utimesE (p : Path) (atime mtime : Nat) -- `fs.utimes(p, atime, mtime)`
  | symlinkE (linkname : Path) (dest : Path) -- `fsSymlink(linkname, dest)`
deriving DecidableEq

/-- A planned copy action (`CopyFileAction` / `CopySymlinkAction`). -/
inductive CAction
  | file (src : Path) (dest : Path) (atime mtime mode : Nat)
  | symlink (dest : Path) (linkname : Path)
deriving DecidableEq

/-- An `onDone` callback value: the no-op default, a caller-supplied callback
(identified by a number), the progress wrapper installed on top-level
requests, or the child closure `() => { if (--remaining === 0) onDone(); }`
referring to counter `cid`. -/
inductive DoneCB
  | noop
  | user (id : Nat)
  | progress (dest : Path)
  | dec (cid : Nat)
deriving DecidableEq

/-- One entry of the planner's copy queue (`CopyQueue` element). `onFresh` is
a caller-supplied callback identified by a number (`none` = absent). -/
structure Req where
  src : Path
  dest : Path
  onFresh : Option Nat := none
  onDone : Option DoneCB := none
deriving DecidableEq

/-- The planner's mutable state during one `buildActionsForCopy` call.
`everEx` is a history variable: it records every path ever added to
`possibleExtraneous` (including the seed) and is never shrunk; the engine
itself only reads `extraneous`. -/
structure PState where
  fs : FSMap
  files : List Path
  extraneous : List Path
  everEx : List Path
  actions : List CAction
  counters : List (Nat × Int × DoneCB)
  nextCid : Nat
  pending : List Req
  trace : List Ev
deriving DecidableEq

/-! ### Elementary state updates -/

def pushEv (s : PState) (e : Ev) : PState :=
  { s with trace := s.trace ++ [e] }

def addFile (s : PState) (p : Path) : PState :=
  { s with files := addSet s.files p }

def addExtra (s : PState) (p : Path) : PState :=
  { s with extraneous := addSet s.extraneous p, everEx := addSet s.everEx p }

def delExtra (s : PState) (p : Path) : PState :=
  { s with extraneous := s.extraneous.filter (fun q => decide (q ≠ p)) }

def doUnlink (s : PState) (p : Path) : PState :=
  { s with fs := unlinkFS s.fs p, trace := s.trace ++ [Ev.unlinkE p] }

def doMkdirp (s : PState) (p : Path) : PState :=
  { s with fs := mkdirpFS s.fs p }

def pushAction (s : PState) (a : CAction) : PState :=
  { s with actions := s.actions ++ [a] }

def pushReq (s : PState) (r : Req) : PState :=
  { s with pending := s.pending ++ [r] }

/-- `onFresh()` (no-op when the request carries no callback). -/
def runFresh (s : PState) : Option Nat → PState
  | none => s
  | some id => pushEv s (Ev.fresh id)

/-- Counter lookup for the child `onDone` closures. -/
def findCounter : List (Nat × Int × DoneCB) → Nat → Option (Int × DoneCB)
  | [], _ => none
  | c :: rest, cid => if c.1 = cid then some c.2 else findCounter rest cid

/-- Overwrite the remaining-children count of counter `cid`. -/
def setCounterRem : List (Nat × Int × DoneCB) → Nat → Int → List (Nat × Int × DoneCB)
  | [], _, _ => []
  | c :: rest, cid, rem =>
      if c.1 = cid then (c.1, rem, c.2.2) :: rest
      else c :: setCounterRem rest cid rem

/-- Allocate a fresh `remaining` counter with the given parent callback;
returns the new state and the counter id. -/
def allocCounter (s : PState) (rem : Int) (parent : DoneCB) : PState × Nat :=
  ({ s with counters := s.counters ++ [(s.nextCid, rem, parent)],
            nextCid := s.nextCid + 1 }, s.nextCid)

/-- Invoke an `onDone` callback.  A `dec cid` invocation is the child closure
`() => { if (--remaining === 0) onDone(); }`: it decrements counter `cid` and,
on reaching zero, invokes the parent callback.  The fuel bounds the length of
the parent chain; the chains arising in an actual run are finite. -/
def runDone : Nat → DoneCB → PState → PState
  | _, DoneCB.noop, s => s
  | _, DoneCB.user id, s => pushEv s (Ev.userDone id)
  | _, DoneCB.progress d, s => pushEv s (Ev.progress d)
  | 0, DoneCB.dec _, s => s
  | Nat.succ f, DoneCB.dec cid, s =>
      match findCounter s.counters cid with
      | none => s
      | some (rem, parent) =>
          let rem2 := rem - 1
          let s2 := { s with counters := setCounterRem s.counters cid rem2 }
          if rem2 = 0 then runDone f parent s2 else s2

/-- The resolved `onDone` of a request (`data.onDone || noop`). -/
def donecb (data : Req) : DoneCB :=
  data.onDone.getD DoneCB.noop

/-! ## The diff planner (`buildActionsForCopy` and its inner `build`) -/

/-- Errors aborting a synchronization call (plus fuel exhaustion). -/
inductive BErr
  | noFuel
  | srcNotFound (p : Path)
  | unsupported (p : Path)
deriving DecidableEq

/-- The `bothFiles` test of `build`. -/
def bothFilesB (srcStat destStat : Stat) : Bool :=
  decide (srcStat.kind = FKind.file) && decide (destStat.kind = FKind.file)

/-- The `bothFolders` test of `build`. -/
def bothFoldersB (srcStat destStat : Stat) : Bool :=
  !bothFilesB srcStat destStat &&
    (decide (srcStat.kind = FKind.dir) && decide (destStat.kind = FKind.dir))

/-- The `bothSymlinks` test of `build`. -/
def bothSymlinksB (srcStat destStat : Stat) : Bool :=
  !bothFoldersB srcStat destStat && !bothFilesB srcStat destStat &&
    (decide (srcStat.kind = FKind.symlink) && decide (destStat.kind = FKind.symlink))

/-- The body of the `bothFolders` scan for one destination child `file`:
if it has no counterpart in `srcFiles`, add it to `possibleExtraneous`, and if
it is itself a directory also add its immediate children (one level only). -/
def scanOne (srcFiles : List String) (dest : Path) (s : PState) (file : String) : PState :=
  if file ∈ srcFiles then s
  else
    let loc := dest ++ [file]
    let s1 := addExtra s loc
    match lstatFS s1.fs loc with
    | some st =>
        if st.kind = FKind.dir then
          (readdirFS s1.fs loc).foldl (fun s2 f2 => addExtra s2 (loc ++ [f2])) s1
        else s1
    | none => s1   -- unreachable: `file` was derived from `readdir dest`

/-- The `bothFolders` branch: scan `destFiles` for extraneous entries. -/
def scanExtraneous (srcFiles : List String) (dest : Path) (destFiles : List String)
    (s : PState) : PState :=
  destFiles.foldl (scanOne srcFiles dest) s

/-- `dest.take n, dest.take (n-1), …, dest.take 1`: what the
`while (destParts.length) { files.add(destParts.join(sep)); destParts.pop() }`
loop adds to `files`. -/
def ancestorsFrom (p : Path) : Nat → List Path
  | 0 => []
  | Nat.succ n => p.take (Nat.succ n) :: ancestorsFrom p n

def ancestorPaths (p : Path) : List Path :=
  ancestorsFrom p p.length

def addPrefixPaths (s : PState) (p : Path) : PState :=
  { s with files := (ancestorPaths p).foldl addSet s.files }

/-- The child request pushed for each entry of a source directory. -/
def mkChild (src dest : Path) (onFresh : Option Nat) (cid : Nat) (name : String) : Req :=
  { src := src ++ [name], dest := dest ++ [name],
    onFresh := onFresh, onDone := some (DoneCB.dec cid) }

/-- Push one child request per source-directory entry onto the shared queue. -/
def pushChildren (src dest : Path) (onFresh : Option Nat) (cid : Nat)
    (names : List String) (s : PState) : PState :=
  names.foldl (fun s2 name => pushReq s2 (mkChild src dest onFresh cid name)) s

/-- The two skip checks of `build` (`bothFiles` with identical size and mtime;
`bothSymlinks` with identical link text) followed by the `bothFolders`
extraneous scan.  Returns the updated state and whether `build` returned
early (request satisfied without dispatching on the source kind). -/
def skipChecks (fuel : Nat) (data : Req) (srcStat destStat : Stat)
    (srcFiles : List String) (s : PState) : PState × Bool :=
  if bothFilesB srcStat destStat && decide (srcStat.size = destStat.size) &&
      decide (srcStat.mtime = destStat.mtime) then
    (runDone fuel (donecb data) s, true)
  else if bothSymlinksB srcStat destStat && decide (srcStat.target = destStat.target) then
    (runDone fuel (donecb data) s, true)
  else if bothFoldersB srcStat destStat then
    (scanExtraneous srcFiles data.dest (readdirFS s.fs data.dest) s, false)
  else (s, false)

/-- The final dispatch of `build` on the source kind: emit a symlink action,
expand a directory into child requests (with the shared `remaining` counter),
emit a file action, or fail on an unsupported kind. -/
def dispatch (fuel : Nat) (data : Req) (srcStat : Stat) (srcFiles : List String)
    (s2 : PState) : Except BErr PState :=
  match srcStat.kind with
  | FKind.symlink =>
      let s3 := runFresh s2 data.onFresh
      let s4 := pushAction s3 (CAction.symlink data.dest srcStat.target)
      Except.ok (runDone fuel (donecb data) s4)
  | FKind.dir =>
      let s3 := addPrefixPaths (doMkdirp s2 data.dest) data.dest
      let pr := allocCounter s3 (Int.ofNat srcFiles.length) (donecb data)
      let s5 := if srcFiles.length = 0 then runDone fuel (donecb data) pr.1 else pr.1
      Except.ok (pushChildren data.src data.dest data.onFresh pr.2 srcFiles s5)
  | FKind.file =>
      let s3 := runFresh s2 data.onFresh
      let s4 := pushAction s3
        (CAction.file data.src data.dest srcStat.atime srcStat.mtime srcStat.mode)
      Except.ok (runDone fuel (donecb data) s4)
  | FKind.other => Except.error (BErr.unsupported data.src)

/-- The planner's per-request `build` function.  The source's
`try { … } / fall-through` shape is flattened: the destructive re-run fires
exactly when the modes differ and it is not the both-regular-files case; the
`access(dest, srcStat.mode)` call fires when the modes differ in the
both-regular-files case. -/
def build : Nat → Req → PState → Except BErr PState
  | 0, _, _ => Except.error BErr.noFuel
  | Nat.succ fuel, data, s0 =>
      let s1 := addFile s0 data.dest
      match lstatFS s1.fs data.src with
      | none => Except.error (BErr.srcNotFound data.src)
      | some srcStat =>
          let srcFiles :=
            if srcStat.kind = FKind.dir then readdirFS s1.fs data.src else []
          match lstatFS s1.fs data.dest with
          | none => dispatch (Nat.succ fuel) data srcStat srcFiles s1
          | some destStat =>
              if srcStat.mode ≠ destStat.mode ∧ bothFilesB srcStat destStat = false then
                build fuel data (doUnlink (delExtra s1 data.dest) data.dest)
              else
                let s2 :=
                  if srcStat.mode ≠ destStat.mode then
                    pushEv s1 (Ev.accessE data.dest srcStat.mode)
                  else s1
                match skipChecks (Nat.succ fuel) data srcStat destStat srcFiles s2 with
                | (s3, true) => Except.ok s3
                | (s3, false) => dispatch (Nat.succ fuel) data srcStat srcFiles s3

/-- Run one spliced batch of (at most 4) requests; the cooperative
single-threaded `Promise.all` is embedded as in-order sequencing. -/
def runBatch (fuel : Nat) : List Req → PState → Except BErr PState
  | [], s => Except.ok s
  | r :: rs, s =>
      match build fuel r s with
      | Except.error e => Except.error e
      | Except.ok s' => runBatch fuel rs s'

/-- The `while (queue.length) { const items = queue.splice(0, 4); … }` loop. -/
def drain : Nat → PState → Except BErr PState
  | 0, _ => Except.error BErr.noFuel
  | Nat.succ fuel, s =>
      if s.pending = [] then Except.ok s
      else
        -- `queue.splice(0, 4)`: the four builds run against the shortened queue
        match runBatch fuel (s.pending.take 4) { s with pending := s.pending.drop 4 } with
        | Except.error e => Except.error e
        | Except.ok s2 => drain fuel s2

/-- The event initialisation of `buildActionsForCopy`: every top-level
request's `onDone` is unconditionally overwritten with
`() => { events.onProgress(item.dest); }`. -/
def initQueue (queue : List Req) : List Req :=
  queue.map (fun item => { item with onDone := some (DoneCB.progress item.dest) })

/-- `new Set(seed)`: dedupe preserving first-insertion order. -/
def mkSet (l : List Path) : List Path :=
  l.foldl addSet []

/-- The final loop of `buildActionsForCopy`: delete every possibly-extraneous
path that was never recorded in `files`. -/
def deletionPass (s : PState) : PState :=
  (s.extraneous.filter (fun loc => !memP loc s.files)).foldl doUnlink s

/-- The planner state at the start of the queue-draining loop. -/
def initState (fs : FSMap) (queue : List Req) (seed : List Path) : PState :=
  { fs := fs, files := [], extraneous := mkSet seed, everEx := mkSet seed,
    actions := [], counters := [], nextCid := 0,
    pending := initQueue queue, trace := [Ev.start queue.length] }

/-- `buildActionsForCopy(queue, events, possibleExtraneousSeed)`: returns the
planned actions together with the final planner state (whose trace holds the
observable events). -/
def buildActionsForCopy (fuel : Nat) (fs : FSMap) (queue : List Req)
    (seed : List Path) : Except BErr (List CAction × PState) :=
  match drain fuel (initState fs queue seed) with
  | Except.error e => Except.error e
  | Except.ok sd => Except.ok ((deletionPass sd).actions, deletionPass sd)

/-! ## The action executor (`copyBulk`) -/

def isFileAct : CAction → Bool
  | CAction.file _ _ _ _ _ => true
  | CAction.symlink _ _ => false

def isLinkAct : CAction → Bool
  | CAction.file _ _ _ _ _ => false
  | CAction.symlink _ _ => true

/-- Execute one `FileCopy` action: stream the bytes, apply the recorded
times, and report progress. -/
def execFile (s : PState) (a : CAction) : PState :=
  match a with
  | CAction.file src dest _atime _mtime _mode =>
      { s with trace := s.trace ++
          [Ev.readE src, Ev.writeE dest _mode, Ev.utimesE dest _atime _mtime,
           Ev.progress dest] }
  | CAction.symlink _ _ => s

/-- Execute one `SymlinkCreate` action. -/
def execLink (s : PState) (a : CAction) : PState :=
  match a with
  | CAction.file _ _ _ _ _ => s
  | CAction.symlink dest linkname =>
      { s with trace := s.trace ++ [Ev.symlinkE linkname dest] }

/-- `copyBulk(queue, events, possibleExtraneous)`: plan, announce the action
count, execute all file copies, then (and only then) all symlink creations. -/
def copyBulk (fuel : Nat) (fs : FSMap) (queue : List Req) (seed : List Path) :
    Except BErr PState :=
  match buildActionsForCopy fuel fs queue seed with
  | Except.error e => Except.error e
  | Except.ok (actions, s0) =>
      let s1 := pushEv s0 (Ev.start actions.length)
      let s2 := (actions.filter isFileAct).foldl execFile s1
      Except.ok ((actions.filter isLinkAct).foldl execLink s2)

/-- `copy(src, dest)` = `copyBulk([{src, dest}])`. -/
def copy (fuel : Nat) (fs : FSMap) (src dest : Path) : Except BErr PState :=
  copyBulk fuel fs [{ src := src, dest := dest }] []

/-! ## Classification of events and callbacks, planner invariants -/

/-- Events the planner can emit (no `onStart`, no copy I/O, no symlink
creation: those belong to the executor). -/
def plannerEvB : Ev → Bool
  | Ev.start _ => false
  | Ev.readE _ => false
  | Ev.writeE _ _ => false
  | Ev.utimesE _ _ _ => false
  | Ev.symlinkE _ _ => false
  | _ => true

/-- A caller-supplied `onDone` invocation. -/
def isUserEv : Ev → Bool
  | Ev.userDone _ => true
  | _ => false

/-- The `onFresh` invocation event of callback `id`. -/
def freshB (id : Nat) : Ev → Bool
  | Ev.fresh i => decide (i = id)
  | _ => false

/-- File-copy I/O events of the executor. -/
def isCopyEv : Ev → Bool
  | Ev.readE _ => true
  | Ev.writeE _ _ => true
  | Ev.utimesE _ _ _ => true
  | _ => false

/-- Symlink-creation events of the executor. -/
def isLinkEv : Ev → Bool
  | Ev.symlinkE _ _ => true
  | _ => false

def isStartEv : Ev → Bool
  | Ev.start _ => true
  | _ => false

def isUserCB : DoneCB → Bool
  | DoneCB.user _ => true
  | _ => false

/-- No counter's parent callback is caller-supplied. -/
def noUserCtrs (s : PState) : Prop :=
  ∀ c ∈ s.counters, isUserCB c.2.2 = false

/-- The request's `onDone` is not caller-supplied. -/
def cbOK (data : Req) : Prop :=
  ∀ cb, data.onDone = some cb → isUserCB cb = false

/-- The extraneous-set history invariant: everything ever recorded as
possibly extraneous is either still in the set or was seen in `files`, and
the set is contained in its history. -/
def Jinv (s : PState) : Prop :=
  (∀ loc ∈ s.everEx, loc ∈ s.extraneous ∨ loc ∈ s.files) ∧
  (∀ loc ∈ s.extraneous, loc ∈ s.everEx)

theorem cbOK_donecb (data : Req) (h : cbOK data) : isUserCB (donecb data) = false := by
  unfold donecb
  cases hd : data.onDone with
  | none => rfl
  | some cb => exact h cb hd

theorem findCounter_mem : ∀ (l : List (Nat × Int × DoneCB)) (cid : Nat) (pr : Int × DoneCB),
    findCounter l cid = some pr → ∃ c ∈ l, c.2.2 = pr.2
  | [], _, _, h => by simp [findCounter] at h
  | c :: rest, cid, pr, h => by
      unfold findCounter at h
      split at h
      · exact ⟨c, List.mem_cons_self c rest, by injection h with h'; rw [h']⟩
      · obtain ⟨c', hc', he⟩ := findCounter_mem rest cid pr h
        exact ⟨c', List.mem_cons_of_mem c hc', he⟩

theorem setCounterRem_parents : ∀ (l : List (Nat × Int × DoneCB)) (cid : Nat) (rem : Int),
    ∀ c' ∈ setCounterRem l cid rem, ∃ c ∈ l, c'.2.2 = c.2.2
  | [], _, _, c', h => by simp [setCounterRem] at h
  | c :: rest, cid, rem, c', h => by
      unfold setCounterRem at h
      split at h
      · rcases List.mem_cons.mp h with h1 | h1
        · exact ⟨c, List.mem_cons_self c rest, by rw [h1]⟩
        · exact ⟨c', List.mem_cons_of_mem c h1, rfl⟩
      · rcases List.mem_cons.mp h with h1 | h1
        · exact ⟨c, List.mem_cons_self c rest, by rw [h1]⟩
        · obtain ⟨c2, hc2, he⟩ := setCounterRem_parents rest cid rem c' h1
          exact ⟨c2, List.mem_cons_of_mem c hc2, he⟩

/-- Aggregate effect of an `onDone` invocation: only the trace (progress /
user-done events) and the counters' remaining counts change. -/
theorem runDone_props : ∀ (f : Nat) (cb : DoneCB) (s : PState),
    (runDone f cb s).fs = s.fs ∧
    (runDone f cb s).files = s.files ∧
    (runDone f cb s).extraneous = s.extraneous ∧
    (runDone f cb s).everEx = s.everEx ∧
    (runDone f cb s).actions = s.actions ∧
    (runDone f cb s).pending = s.pending ∧
    (runDone f cb s).nextCid = s.nextCid ∧
    (∀ c' ∈ (runDone f cb s).counters, ∃ c ∈ s.counters, c'.2.2 = c.2.2) ∧
    ∃ t, (runDone f cb s).trace = s.trace ++ t ∧
      (∀ e ∈ t, plannerEvB e = true ∧ ∀ id, freshB id e = false) ∧
      (noUserCtrs s → isUserCB cb = false → ∀ e ∈ t, isUserEv e = false) := by
  intro f
  induction f with
  | zero =>
      intro cb s
      cases cb with
      | noop => exact ⟨rfl, rfl, rfl, rfl, rfl, rfl, rfl,
          fun c' h => ⟨c', h, rfl⟩, [], by simp [runDone]⟩
      | user id => exact ⟨rfl, rfl, rfl, rfl, rfl, rfl, rfl,
          fun c' h => ⟨c', h, rfl⟩, [Ev.userDone id], by
            refine ⟨rfl, ?_, ?_⟩
            · intro e he
              rw [List.mem_singleton] at he
              subst he
              exact ⟨rfl, fun _ => rfl⟩
            · intro _ hcb e he
              simp [isUserCB] at hcb⟩
      | progress d => exact ⟨rfl, rfl, rfl, rfl, rfl, rfl, rfl,
          fun c' h => ⟨c', h, rfl⟩, [Ev.progress d], by
            refine ⟨rfl, ?_, ?_⟩
            · intro e he
              rw [List.mem_singleton] at he
              subst he
              exact ⟨rfl, fun _ => rfl⟩
            · intro _ _ e he
              rw [List.mem_singleton] at he
              subst he
              rfl⟩
      | dec cid => exact ⟨rfl, rfl, rfl, rfl, rfl, rfl, rfl,
          fun c' h => ⟨c', h, rfl⟩, [], by simp [runDone]⟩
  | succ f ih =>
      intro cb s
      cases cb with
      | noop => exact ⟨rfl, rfl, rfl, rfl, rfl, rfl, rfl,
          fun c' h => ⟨c', h, rfl⟩, [], by simp [runDone]⟩
      | user id => exact ⟨rfl, rfl, rfl, rfl, rfl, rfl, rfl,
          fun c' h => ⟨c', h, rfl⟩, [Ev.userDone id], by
            refine ⟨rfl, ?_, ?_⟩
            · intro e he
              rw [List.mem_singleton] at he
              subst he
              exact ⟨rfl, fun _ => rfl⟩
            · intro _ hcb e he
              simp [isUserCB] at hcb⟩
      | progress d => exact ⟨rfl, rfl, rfl, rfl, rfl, rfl, rfl,
          fun c' h => ⟨c', h, rfl⟩, [Ev.progress d], by
            refine ⟨rfl, ?_, ?_⟩
            · intro e he
              rw [List.mem_singleton] at he
              subst he
              exact ⟨rfl, fun _ => rfl⟩
            · intro _ _ e he
              rw [List.mem_singleton] at he
              subst he
              rfl⟩
      | dec cid =>
          show _ ∧ _
          unfold runDone
          cases hf : findCounter s.counters cid with
          | none => exact ⟨rfl, rfl, rfl, rfl, rfl, rfl, rfl,
              fun c' h => ⟨c', h, rfl⟩, [], by simp⟩
          | some pr =>
              obtain ⟨rem, parent⟩ := pr
              simp only
              set s2 : PState := { s with counters := setCounterRem s.counters cid (rem - 1) }
                with hs2
              by_cases hz : rem - 1 = 0
              · simp only [hz, if_pos rfl]
                obtain ⟨e1, e2, e3, e4, e5, e6, e7, e8, t, ht, htp, htu⟩ := ih parent s2
                refine ⟨e1, e2, e3, e4, e5, e6, e7, ?_, t, ht, htp, ?_⟩
                · intro c' hc'
                  obtain ⟨c2, hc2, hee⟩ := e8 c' hc'
                  obtain ⟨c3, hc3, hee2⟩ := setCounterRem_parents s.counters cid (rem - 1) c2 hc2
                  exact ⟨c3, hc3, hee.trans hee2⟩
                · intro hnu _
                  have hpar : isUserCB parent = false := by
                    obtain ⟨c, hc, he⟩ := findCounter_mem s.counters cid (rem, parent) hf
                    have := hnu c hc
                    rw [he] at this
                    exact this
                  have hnu2 : noUserCtrs s2 := by
                    intro c hc
                    obtain ⟨c2, hc2, hee⟩ := setCounterRem_parents s.counters cid (rem - 1) c hc
                    rw [hee]
                    exact hnu c2 hc2
                  exact htu hnu2 hpar
              · simp only [hz, if_neg hz]
                refine ⟨rfl, rfl, rfl, rfl, rfl, rfl, rfl, ?_, [], by simp, by simp, by simp⟩
                intro c' hc'
                exact setCounterRem_parents s.counters cid (rem - 1) c' hc'

/-! ### Effect lemmas for the planner's helper operations -/

theorem Jinv_addExtra {s : PState} (p : Path) (h : Jinv s) : Jinv (addExtra s p) := by
  obtain ⟨h1, h2⟩ := h
  constructor
  · intro loc hl
    simp only [addExtra] at hl ⊢
    rcases (mem_addSet _ _ _).mp hl with hl | rfl
    · rcases h1 loc hl with hx | hx
      · exact Or.inl ((mem_addSet _ _ _).mpr (Or.inl hx))
      · exact Or.inr hx
    · exact Or.inl (self_mem_addSet _ _)
  · intro loc hl
    simp only [addExtra] at hl ⊢
    rcases (mem_addSet _ _ _).mp hl with hl | rfl
    · exact (mem_addSet _ _ _).mpr (Or.inl (h2 loc hl))
    · exact self_mem_addSet _ _

/-- A fold of `addExtra` changes only the two extraneous sets and preserves
the invariant. -/
theorem addExtraFold_props {α : Type} (g : α → Path) :
    ∀ (l : List α) (s : PState),
    ((l.foldl (fun s2 x => addExtra s2 (g x)) s).trace = s.trace ∧
     (l.foldl (fun s2 x => addExtra s2 (g x)) s).actions = s.actions ∧
     (l.foldl (fun s2 x => addExtra s2 (g x)) s).pending = s.pending ∧
     (l.foldl (fun s2 x => addExtra s2 (g x)) s).counters = s.counters ∧
     (l.foldl (fun s2 x => addExtra s2 (g x)) s).files = s.files ∧
     (l.foldl (fun s2 x => addExtra s2 (g x)) s).fs = s.fs) ∧
    (Jinv s → Jinv (l.foldl (fun s2 x => addExtra s2 (g x)) s))
  | [], s => ⟨⟨rfl, rfl, rfl, rfl, rfl, rfl⟩, fun h => h⟩
  | x :: rest, s => by
      have ih := addExtraFold_props g rest (addExtra s (g x))
      refine ⟨⟨?_, ?_, ?_, ?_, ?_, ?_⟩, ?_⟩
      · exact ih.1.1
      · exact ih.1.2.1
      · exact ih.1.2.2.1
      · exact ih.1.2.2.2.1
      · exact ih.1.2.2.2.2.1
      · exact ih.1.2.2.2.2.2
      · intro h
        exact ih.2 (Jinv_addExtra (g x) h)

theorem scanOne_props (srcFiles : List String) (dest : Path) (s : PState) (file : String) :
    ((scanOne srcFiles dest s file).trace = s.trace ∧
     (scanOne srcFiles dest s file).actions = s.actions ∧
     (scanOne srcFiles dest s file).pending = s.pending ∧
     (scanOne srcFiles dest s file).counters = s.counters ∧
     (scanOne srcFiles dest s file).files = s.files ∧
     (scanOne srcFiles dest s file).fs = s.fs) ∧
    (Jinv s → Jinv (scanOne srcFiles dest s file)) := by
  unfold scanOne
  split
  · exact ⟨⟨rfl, rfl, rfl, rfl, rfl, rfl⟩, fun h => h⟩
  · cases hl : lstatFS (addExtra s (dest ++ [file])).fs (dest ++ [file]) with
    | none =>
        simp only [hl]
        exact ⟨⟨rfl, rfl, rfl, rfl, rfl, rfl⟩, fun h => Jinv_addExtra _ h⟩
    | some st =>
        simp only [hl]
        split
        · have hf := addExtraFold_props (fun f2 => (dest ++ [file]) ++ [f2])
            (readdirFS (addExtra s (dest ++ [file])).fs (dest ++ [file]))
            (addExtra s (dest ++ [file]))
          refine ⟨⟨hf.1.1, hf.1.2.1, hf.1.2.2.1, hf.1.2.2.2.1, hf.1.2.2.2.2.1,
            hf.1.2.2.2.2.2⟩, ?_⟩
          intro h
          exact hf.2 (Jinv_addExtra _ h)
        · exact ⟨⟨rfl, rfl, rfl, rfl, rfl, rfl⟩, fun h => Jinv_addExtra _ h⟩

theorem scanExtraneous_props (srcFiles : List String) (dest : Path) :
    ∀ (destFiles : List String) (s : PState),
    ((scanExtraneous srcFiles dest destFiles s).trace = s.trace ∧
     (scanExtraneous srcFiles dest destFiles s).actions = s.actions ∧
     (scanExtraneous srcFiles dest destFiles s).pending = s.pending ∧
     (scanExtraneous srcFiles dest destFiles s).counters = s.counters ∧
     (scanExtraneous srcFiles dest destFiles s).files = s.files) ∧
    (Jinv s → Jinv (scanExtraneous srcFiles dest destFiles s))
  | [], s => ⟨⟨rfl, rfl, rfl, rfl, rfl⟩, fun h => h⟩
  | f :: rest, s => by
      have h1 := scanOne_props srcFiles dest s f
      have ih := scanExtraneous_props srcFiles dest rest (scanOne srcFiles dest s f)
      unfold scanExtraneous at ih ⊢
      refine ⟨⟨?_, ?_, ?_, ?_, ?_⟩, ?_⟩
      · exact ih.1.1.trans h1.1.1
      · exact ih.1.2.1.trans h1.1.2.1
      · exact ih.1.2.2.1.trans h1.1.2.2.1
      · exact ih.1.2.2.2.1.trans h1.1.2.2.2.1
      · exact ih.1.2.2.2.2.trans h1.1.2.2.2.2.1
      · intro h
        exact ih.2 (h1.2 h)

theorem addSetFold_mem : ∀ (l : List Path) (fs : List Path) (x : Path),
    x ∈ fs → x ∈ l.foldl addSet fs
  | [], _, _, h => h
  | p :: rest, fs, x, h =>
      addSetFold_mem rest (addSet fs p) x ((mem_addSet _ _ _).mpr (Or.inl h))

theorem pushChildren_eq (src dest : Path) (onFresh : Option Nat) (cid : Nat) :
    ∀ (names : List String) (s : PState),
    pushChildren src dest onFresh cid names s =
      { s with pending := s.pending ++ names.map (mkChild src dest onFresh cid) }
  | [], s => by simp [pushChildren]
  | n :: rest, s => by
      have ih := pushChildren_eq src dest onFresh cid rest
        (pushReq s (mkChild src dest onFresh cid n))
      unfold pushChildren at ih ⊢
      rw [List.foldl_cons, ih]
      simp [pushReq, List.append_assoc]

/-- Aggregate postcondition of one `build` step: the trace, action list and
pending queue only grow; new trace events are planner events; new pending
requests are child requests inheriting the parent's `onFresh`; the
extraneous-history invariant is preserved; no caller-supplied `onDone` fires
(given none is reachable); and exactly one `onFresh id` event is emitted per
new action when the request carries `onFresh = id`. -/
def BuildOK (data : Req) (s s' : PState) : Prop :=
  ∃ t na np,
    s'.trace = s.trace ++ t ∧
    s'.actions = s.actions ++ na ∧
    s'.pending = s.pending ++ np ∧
    (∀ e ∈ t, plannerEvB e = true) ∧
    (∀ r ∈ np, r.onFresh = data.onFresh ∧ ∃ c, r.onDone = some (DoneCB.dec c)) ∧
    (Jinv s → Jinv s') ∧
    (noUserCtrs s → cbOK data → noUserCtrs s' ∧ ∀ e ∈ t, isUserEv e = false) ∧
    (∀ id, data.onFresh = some id → t.countP (freshB id) = na.length)

theorem Jinv_eq_carry {s s' : PState} (hf : s'.files = s.files)
    (he : s'.extraneous = s.extraneous) (hx : s'.everEx = s.everEx)
    (h : Jinv s) : Jinv s' := by
  constructor
  · intro loc hl
    rw [hx] at hl
    rw [he, hf]
    exact h.1 loc hl
  · intro loc hl
    rw [he] at hl
    rw [hx]
    exact h.2 loc hl

theorem countP_zero_of {p : Ev → Bool} {t : List Ev} (h : ∀ e ∈ t, p e = false) :
    t.countP p = 0 := by
  rw [List.countP_eq_zero]
  intro a ha
  simp [h a ha]

theorem skipChecks_props (fuel : Nat) (data : Req) (srcStat destStat : Stat)
    (srcFiles : List String) (s s' : PState) (b : Bool)
    (h : skipChecks fuel data srcStat destStat srcFiles s = (s', b)) :
    s'.actions = s.actions ∧
    s'.pending = s.pending ∧
    s'.files = s.files ∧
    ∃ t, s'.trace = s.trace ++ t ∧
      (∀ e ∈ t, plannerEvB e = true ∧ ∀ id, freshB id e = false) ∧
      (Jinv s → Jinv s') ∧
      (noUserCtrs s → cbOK data → noUserCtrs s' ∧ ∀ e ∈ t, isUserEv e = false) := by
  unfold skipChecks at h
  split at h
  · obtain ⟨e1, e2, e3, e4, e5, e6, e7, e8, td, htd, htp, htu⟩ :=
      runDone_props fuel (donecb data) s
    cases h
    refine ⟨e5, e6, e2, td, htd, htp, Jinv_eq_carry e2 e3 e4, ?_⟩
    intro hnu hcb
    refine ⟨?_, htu hnu (cbOK_donecb data hcb)⟩
    intro c' hc'
    obtain ⟨c, hc, he⟩ := e8 c' hc'
    rw [he]
    exact hnu c hc
  · split at h
    · obtain ⟨e1, e2, e3, e4, e5, e6, e7, e8, td, htd, htp, htu⟩ :=
        runDone_props fuel (donecb data) s
      cases h
      refine ⟨e5, e6, e2, td, htd, htp, Jinv_eq_carry e2 e3 e4, ?_⟩
      intro hnu hcb
      refine ⟨?_, htu hnu (cbOK_donecb data hcb)⟩
      intro c' hc'
      obtain ⟨c, hc, he⟩ := e8 c' hc'
      rw [he]
      exact hnu c hc
    · split at h
      · have hs := scanExtraneous_props srcFiles data.dest
          (readdirFS s.fs data.dest) s
        cases h
        refine ⟨hs.1.2.1, hs.1.2.2.1, hs.1.2.2.2.2, [], ?_, ?_, ?_, ?_⟩
        · rw [hs.1.1, List.append_nil]
        · intro e he
          cases he
        · exact hs.2
        · intro hnu _
          refine ⟨?_, ?_⟩
          · intro c' hc'
            rw [hs.1.2.2.2.1] at hc'
            exact hnu c' hc'
          · intro e he
            cases he
      · cases h
        refine ⟨rfl, rfl, rfl, [], ?_, ?_, ?_, ?_⟩
        · rw [List.append_nil]
        · intro e he
          cases he
        · exact fun hj => hj
        · exact fun hnu _ => ⟨hnu, by intro e he; cases he⟩

/-- The symlink/file dispatch pattern: fire `onFresh`, push one action,
invoke `onDone`. -/
theorem emit_props (fuel : Nat) (data : Req) (act : CAction) (s : PState) :
    BuildOK data s (runDone fuel (donecb data) (pushAction (runFresh s data.onFresh) act)) := by
  cases hf : data.onFresh with
  | none =>
      obtain ⟨e1, e2, e3, e4, e5, e6, e7, e8, td, htd, htp, htu⟩ :=
        runDone_props fuel (donecb data) (pushAction (runFresh s none) act)
      refine ⟨td, [act], [], ?_, ?_, ?_, ?_, ?_, ?_, ?_, ?_⟩
      · simpa [pushAction, runFresh] using htd
      · simpa [pushAction, runFresh] using e5
      · simpa [pushAction, runFresh] using e6
      · exact fun e he => (htp e he).1
      · intro r hr
        cases hr
      · intro hj
        exact Jinv_eq_carry e2 e3 e4 hj
      · intro hnu hcb
        refine ⟨?_, htu hnu (cbOK_donecb data hcb)⟩
        intro c' hc'
        obtain ⟨c, hc, he⟩ := e8 c' hc'
        rw [he]
        exact hnu c hc
      · intro id hid
        rw [hf] at hid
        cases hid
  | some id =>
      obtain ⟨e1, e2, e3, e4, e5, e6, e7, e8, td, htd, htp, htu⟩ :=
        runDone_props fuel (donecb data) (pushAction (runFresh s (some id)) act)
      refine ⟨Ev.fresh id :: td, [act], [], ?_, ?_, ?_, ?_, ?_, ?_, ?_, ?_⟩
      · rw [htd]
        simp [pushAction, runFresh, pushEv]
      · simpa [pushAction, runFresh, pushEv] using e5
      · simpa [pushAction, runFresh, pushEv] using e6
      · intro e he
        rcases List.mem_cons.mp he with rfl | he
        · rfl
        · exact (htp e he).1
      · intro r hr
        cases hr
      · intro hj
        exact Jinv_eq_carry e2 e3 e4 hj
      · intro hnu hcb
        refine ⟨?_, ?_⟩
        · intro c' hc'
          obtain ⟨c, hc, he⟩ := e8 c' hc'
          rw [he]
          exact hnu c hc
        · intro e he
          rcases List.mem_cons.mp he with rfl | he
          · rfl
          · exact htu hnu (cbOK_donecb data hcb) e he
      · intro id' hid
        rw [hf] at hid
        injection hid with hid
        subst hid
        rw [List.countP_cons]
        rw [countP_zero_of (fun e he => (htp e he).2 id)]
        simp [freshB]

theorem Jinv_mono_carry {s s' : PState} (hf : ∀ x ∈ s.files, x ∈ s'.files)
    (he : s'.extraneous = s.extraneous) (hx : s'.everEx = s.everEx)
    (h : Jinv s) : Jinv s' := by
  constructor
  · intro loc hl
    rw [hx] at hl
    rcases h.1 loc hl with h1 | h1
    · rw [he]
      exact Or.inl h1
    · exact Or.inr (hf loc h1)
  · intro loc hl
    rw [he] at hl
    rw [hx]
    exact h.2 loc hl

/-- The directory dispatch pattern: `mkdirp`, register ancestors as seen,
allocate the `remaining` counter, fire `onDone` eagerly when there are no
children, and enqueue one child request per source entry. -/
theorem dirCase_props (fuel : Nat) (data : Req) (names : List String) (s : PState) :
    BuildOK data s
      (pushChildren data.src data.dest data.onFresh
        (allocCounter (addPrefixPaths (doMkdirp s data.dest) data.dest)
          (Int.ofNat names.length) (donecb data)).2
        names
        (if names.length = 0 then
          runDone fuel (donecb data)
            (allocCounter (addPrefixPaths (doMkdirp s data.dest) data.dest)
              (Int.ofNat names.length) (donecb data)).1
         else
          (allocCounter (addPrefixPaths (doMkdirp s data.dest) data.dest)
            (Int.ofNat names.length) (donecb data)).1)) := by
  rw [pushChildren_eq]
  have hnoUserA : ∀ s4 : PState, noUserCtrs s4 → cbOK data →
      ∀ c ∈ s4.counters ++ [(s4.nextCid, Int.ofNat names.length, donecb data)],
        isUserCB c.2.2 = false := by
    intro s4 hnu hcb c hc
    rcases List.mem_append.mp hc with hc1 | hc1
    · exact hnu c hc1
    · rw [List.mem_singleton] at hc1
      subst hc1
      exact cbOK_donecb data hcb
  cases names with
  | nil =>
      rw [if_pos (show ([] : List String).length = 0 from rfl)]
      simp only [List.map_nil, List.append_nil]
      obtain ⟨e1, e2, e3, e4, e5, e6, e7, e8, td, htd, htp, htu⟩ :=
        runDone_props fuel (donecb data)
          (allocCounter (addPrefixPaths (doMkdirp s data.dest) data.dest)
            (Int.ofNat ([] : List String).length) (donecb data)).1
      refine ⟨td, [], [], ?_, ?_, ?_, ?_, ?_, ?_, ?_, ?_⟩
      · exact htd
      · rw [List.append_nil]
        exact e5
      · rw [List.append_nil]
        exact e6
      · exact fun e he => (htp e he).1
      · intro r hr
        cases hr
      · intro hj
        refine Jinv_mono_carry ?_ ?_ ?_ hj
        · intro x hx
          have hf2 : (runDone fuel (donecb data)
              (allocCounter (addPrefixPaths (doMkdirp s data.dest) data.dest)
                (Int.ofNat ([] : List String).length) (donecb data)).1).files =
              (ancestorPaths data.dest).foldl addSet s.files := e2
          exact hf2.symm ▸ addSetFold_mem (ancestorPaths data.dest) s.files x hx
        · exact e3
        · exact e4
      · intro hnu hcb
        have hA : noUserCtrs (allocCounter (addPrefixPaths (doMkdirp s data.dest) data.dest)
            (Int.ofNat ([] : List String).length) (donecb data)).1 :=
          hnoUserA s hnu hcb
        refine ⟨?_, htu hA (cbOK_donecb data hcb)⟩
        intro c' hc'
        obtain ⟨c, hc, he⟩ := e8 c' hc'
        rw [he]
        exact hA c hc
      · intro id _
        rw [countP_zero_of (fun e he => (htp e he).2 id)]
        rfl
  | cons n ns =>
      rw [if_neg (show ¬((n :: ns : List String).length = 0) from by simp)]
      refine ⟨[], [], (n :: ns).map
        (mkChild data.src data.dest data.onFresh
          (allocCounter (addPrefixPaths (doMkdirp s data.dest) data.dest)
            (Int.ofNat (n :: ns).length) (donecb data)).2), ?_, ?_, ?_, ?_, ?_, ?_, ?_, ?_⟩
      · rw [List.append_nil]
        rfl
      · rw [List.append_nil]
        rfl
      · rfl
      · intro e he
        cases he
      · intro r hr
        rw [List.mem_map] at hr
        obtain ⟨name, _, rfl⟩ := hr
        exact ⟨rfl, _, rfl⟩
      · intro hj
        refine Jinv_mono_carry ?_ ?_ ?_ hj
        · intro x hx
          exact addSetFold_mem (ancestorPaths data.dest) s.files x hx
        · rfl
        · rfl
      · intro hnu hcb
        refine ⟨?_, ?_⟩
        · intro c' hc'
          exact hnoUserA s hnu hcb c' hc'
        · intro e he
          cases he
      · intro id _
        rfl

theorem dispatch_props (fuel : Nat) (data : Req) (srcStat : Stat)
    (srcFiles : List String) (s s' : PState)
    (h : dispatch fuel data srcStat srcFiles s = Except.ok s') :
    BuildOK data s s' := by
  unfold dispatch at h
  split at h
  · -- symlink
    injection h with h
    subst h
    exact emit_props fuel data (CAction.symlink data.dest srcStat.target) s
  · -- directory
    injection h with h
    subst h
    exact dirCase_props fuel data srcFiles s
  · -- file
    injection h with h
    subst h
    exact emit_props fuel data
      (CAction.file data.src data.dest srcStat.atime srcStat.mtime srcStat.mode) s
  · cases h

theorem Jinv_delExtra_seen {s : PState} {p : Path} (hp : p ∈ s.files) (h : Jinv s) :
    Jinv (delExtra s p) := by
  constructor
  · intro loc hl
    rcases h.1 loc hl with h1 | h1
    · by_cases hlp : loc = p
      · subst hlp
        exact Or.inr hp
      · refine Or.inl ?_
        show loc ∈ s.extraneous.filter (fun q => decide (q ≠ p))
        rw [List.mem_filter]
        exact ⟨h1, by simpa using hlp⟩
    · exact Or.inr h1
  · intro loc hl
    have hl' : loc ∈ s.extraneous.filter (fun q => decide (q ≠ p)) := hl
    exact h.2 loc (List.mem_filter.mp hl').1

/-- Trivial `BuildOK` (nothing happened). -/
theorem BuildOK_refl (data : Req) (s : PState) : BuildOK data s s := by
  refine ⟨[], [], [], ?_, ?_, ?_, ?_, ?_, fun h => h, ?_, ?_⟩
  · rw [List.append_nil]
  · rw [List.append_nil]
  · rw [List.append_nil]
  · intro e he
    cases he
  · intro r hr
    cases hr
  · exact fun hnu _ => ⟨hnu, by intro e he; cases he⟩
  · exact fun id _ => rfl

/-- Prefix a `BuildOK` step with a preliminary state change that only appends
planner events, preserves actions and pending requests, and respects the
invariants. -/
theorem BuildOK_front (data : Req) (s0 s1 : PState) {s' : PState} (t0 : List Ev)
    (htr : s1.trace = s0.trace ++ t0)
    (hac : s1.actions = s0.actions)
    (hpe : s1.pending = s0.pending)
    (hplanner : ∀ e ∈ t0, plannerEvB e = true)
    (hfresh0 : ∀ e ∈ t0, ∀ id, freshB id e = false)
    (hJ : Jinv s0 → Jinv s1)
    (hnuT : noUserCtrs s0 → cbOK data → noUserCtrs s1)
    (huser0 : noUserCtrs s0 → cbOK data → ∀ e ∈ t0, isUserEv e = false)
    (h : BuildOK data s1 s') : BuildOK data s0 s' := by
  obtain ⟨t, na, np, h1, h2, h3, h4, h5, h6, h7, h8⟩ := h
  refine ⟨t0 ++ t, na, np, ?_, ?_, ?_, ?_, h5, ?_, ?_, ?_⟩
  · rw [h1, htr, List.append_assoc]
  · rw [h2, hac]
  · rw [h3, hpe]
  · intro e he
    rcases List.mem_append.mp he with h9 | h9
    · exact hplanner e h9
    · exact h4 e h9
  · exact fun hj => h6 (hJ hj)
  · intro hnu hcb
    obtain ⟨hnu', hev⟩ := h7 (hnuT hnu hcb) hcb
    refine ⟨hnu', ?_⟩
    intro e he
    rcases List.mem_append.mp he with h9 | h9
    · exact huser0 hnu hcb e h9
    · exact hev e h9
  · intro id hid
    rw [List.countP_append, countP_zero_of (fun e he => hfresh0 e he id), h8 id hid]
    exact Nat.zero_add _

/-- Prefix a `BuildOK` step with the `files.add(dest)`, optional
`access(dest, mode)` and skip-checks phase of `build`. -/
theorem skipFront (fuel : Nat) (data : Req) (srcStat destStat : Stat)
    (srcFiles : List String) (s s2 s3 : PState) (b : Bool) (accessPart : List Ev)
    (hs2tr : s2.trace = s.trace ++ accessPart)
    (hs2ac : s2.actions = s.actions)
    (hs2pe : s2.pending = s.pending)
    (hs2fi : ∀ x ∈ s.files, x ∈ s2.files)
    (hs2ex : s2.extraneous = s.extraneous)
    (hs2ev : s2.everEx = s.everEx)
    (hs2ct : s2.counters = s.counters)
    (haccess : ∀ e ∈ accessPart,
      plannerEvB e = true ∧ (∀ id, freshB id e = false) ∧ isUserEv e = false)
    (heq : skipChecks fuel data srcStat destStat srcFiles s2 = (s3, b))
    {s' : PState} (h : BuildOK data s3 s') : BuildOK data s s' := by
  obtain ⟨f1, f2, f3, tS, ftr, fprops, fJ, fnu⟩ :=
    skipChecks_props fuel data srcStat destStat srcFiles s2 s3 b heq
  refine BuildOK_front data s s3 (accessPart ++ tS) ?_ ?_ ?_ ?_ ?_ ?_ ?_ ?_ h
  · rw [ftr, hs2tr, List.append_assoc]
  · rw [f1, hs2ac]
  · rw [f2, hs2pe]
  · intro e he
    rcases List.mem_append.mp he with h9 | h9
    · exact (haccess e h9).1
    · exact (fprops e h9).1
  · intro e he id
    rcases List.mem_append.mp he with h9 | h9
    · exact (haccess e h9).2.1 id
    · exact (fprops e h9).2 id
  · intro hj
    exact fJ (Jinv_mono_carry hs2fi hs2ex hs2ev hj)
  · intro hnu hcb
    have hnu2 : noUserCtrs s2 := by
      intro c hc
      rw [hs2ct] at hc
      exact hnu c hc
    exact (fnu hnu2 hcb).1
  · intro hnu hcb e he
    rcases List.mem_append.mp he with h9 | h9
    · exact (haccess e h9).2.2
    · have hnu2 : noUserCtrs s2 := by
        intro c hc
        rw [hs2ct] at hc
        exact hnu c hc
      exact (fnu hnu2 hcb).2 e h9

/-- One `build` step satisfies the aggregate planner postcondition. -/
theorem build_props : ∀ (fuel : Nat) (data : Req) (s s' : PState),
    build fuel data s = Except.ok s' → BuildOK data s s' := by
  intro fuel
  induction fuel with
  | zero =>
      intro data s s' h
      simp [build] at h
  | succ fuel ih =>
      intro data s s' h
      simp only [build] at h
      split at h
      · cases h
      · rename_i srcStat hsrc
        split at h
        · -- destination does not exist: straight to dispatch
          refine BuildOK_front data s (addFile s data.dest) []
            ((List.append_nil _).symm) rfl rfl ?_ ?_ ?_ ?_ ?_
            (dispatch_props _ _ _ _ _ _ h)
          · intro e he
            cases he
          · intro e he
            cases he
          · exact fun hj =>
              Jinv_mono_carry (fun x hx => (mem_addSet _ _ _).mpr (Or.inl hx)) rfl rfl hj
          · exact fun hnu _ => hnu
          · intro _ _ e he
            cases he
        · rename_i destStat hdest
          split at h
          · -- mode mismatch, not both regular files: delete and re-run
            rename_i hmm
            refine BuildOK_front data s
              (doUnlink (delExtra (addFile s data.dest) data.dest) data.dest)
              [Ev.unlinkE data.dest] rfl rfl rfl ?_ ?_ ?_ ?_ ?_
              (ih data _ s' h)
            · intro e he
              rw [List.mem_singleton] at he
              subst he
              rfl
            · intro e he id
              rw [List.mem_singleton] at he
              subst he
              rfl
            · intro hj
              have h1 : Jinv (addFile s data.dest) :=
                Jinv_mono_carry (fun x hx => (mem_addSet _ _ _).mpr (Or.inl hx)) rfl rfl hj
              have h2 : Jinv (delExtra (addFile s data.dest) data.dest) :=
                Jinv_delExtra_seen (self_mem_addSet s.files data.dest) h1
              exact h2
            · exact fun hnu _ => hnu
            · intro _ _ e he
              rw [List.mem_singleton] at he
              subst he
              rfl
          · -- no destructive re-run: optional access, skip checks, dispatch
            by_cases hmode : srcStat.mode ≠ destStat.mode
            · rw [if_pos hmode] at h
              split at h
              · rename_i s3 heq
                injection h with h
                subst h
                exact skipFront (Nat.succ fuel) data srcStat destStat _ s
                  (pushEv (addFile s data.dest) (Ev.accessE data.dest srcStat.mode)) s3 true
                  [Ev.accessE data.dest srcStat.mode] rfl rfl rfl
                  (fun x hx => (mem_addSet _ _ _).mpr (Or.inl hx)) rfl rfl rfl
                  (by
                    intro e he
                    rw [List.mem_singleton] at he
                    subst he
                    exact ⟨rfl, fun _ => rfl, rfl⟩)
                  heq (BuildOK_refl data s3)
              · rename_i s3 heq
                exact skipFront (Nat.succ fuel) data srcStat destStat _ s
                  (pushEv (addFile s data.dest) (Ev.accessE data.dest srcStat.mode)) s3 false
                  [Ev.accessE data.dest srcStat.mode] rfl rfl rfl
                  (fun x hx => (mem_addSet _ _ _).mpr (Or.inl hx)) rfl rfl rfl
                  (by
                    intro e he
                    rw [List.mem_singleton] at he
                    subst he
                    exact ⟨rfl, fun _ => rfl, rfl⟩)
                  heq (dispatch_props _ _ _ _ _ _ h)
            · rw [if_neg hmode] at h
              split at h
              · rename_i s3 heq
                injection h with h
                subst h
                exact skipFront (Nat.succ fuel) data srcStat destStat _ s
                  (addFile s data.dest) s3 true
                  [] ((List.append_nil _).symm) rfl rfl
                  (fun x hx => (mem_addSet _ _ _).mpr (Or.inl hx)) rfl rfl rfl
                  (by intro e he; cases he)
                  heq (BuildOK_refl data s3)
              · rename_i s3 heq
                exact skipFront (Nat.succ fuel) data srcStat destStat _ s
                  (addFile s data.dest) s3 false
                  [] ((List.append_nil _).symm) rfl rfl
                  (fun x hx => (mem_addSet _ _ _).mpr (Or.inl hx)) rfl rfl rfl
                  (by intro e he; cases he)
                  heq (dispatch_props _ _ _ _ _ _ h)

/-- Aggregate postcondition of one spliced batch. -/
theorem runBatch_props : ∀ (items : List Req) (fuel : Nat) (s s' : PState),
    runBatch fuel items s = Except.ok s' →
    ∃ t na np,
      s'.trace = s.trace ++ t ∧
      s'.actions = s.actions ++ na ∧
      s'.pending = s.pending ++ np ∧
      (∀ e ∈ t, plannerEvB e = true) ∧
      (∀ r ∈ np, (∃ d ∈ items, r.onFresh = d.onFresh) ∧
        ∃ c, r.onDone = some (DoneCB.dec c)) ∧
      (Jinv s → Jinv s') ∧
      (noUserCtrs s → (∀ d ∈ items, cbOK d) →
        noUserCtrs s' ∧ ∀ e ∈ t, isUserEv e = false) ∧
      (∀ id, (∀ d ∈ items, d.onFresh = some id) → t.countP (freshB id) = na.length)
  | [], fuel, s, s', h => by
      cases h
      refine ⟨[], [], [], ?_, ?_, ?_, ?_, ?_, fun hj => hj, ?_, ?_⟩
      · rw [List.append_nil]
      · rw [List.append_nil]
      · rw [List.append_nil]
      · intro e he
        cases he
      · intro r hr
        cases hr
      · exact fun hnu _ => ⟨hnu, by intro e he; cases he⟩
      · exact fun id _ => rfl
  | r :: rs, fuel, s, s', h => by
      unfold runBatch at h
      cases hb : build fuel r s with
      | error e =>
          rw [hb] at h
          cases h
      | ok s1 =>
          rw [hb] at h
          obtain ⟨tB, naB, npB, b1, b2, b3, b4, b5, b6, b7, b8⟩ :=
            build_props fuel r s s1 hb
          obtain ⟨tR, naR, npR, r1, r2, r3, r4, r5, r6, r7, r8⟩ :=
            runBatch_props rs fuel s1 s' h
          refine ⟨tB ++ tR, naB ++ naR, npB ++ npR, ?_, ?_, ?_, ?_, ?_, ?_, ?_, ?_⟩
          · rw [r1, b1, List.append_assoc]
          · rw [r2, b2, List.append_assoc]
          · rw [r3, b3, List.append_assoc]
          · intro e he
            rcases List.mem_append.mp he with h9 | h9
            · exact b4 e h9
            · exact r4 e h9
          · intro rq hq
            rcases List.mem_append.mp hq with h9 | h9
            · exact ⟨⟨r, List.mem_cons_self r rs, (b5 rq h9).1⟩, (b5 rq h9).2⟩
            · obtain ⟨⟨d, hd, he⟩, hc⟩ := r5 rq h9
              exact ⟨⟨d, List.mem_cons_of_mem r hd, he⟩, hc⟩
          · exact fun hj => r6 (b6 hj)
          · intro hnu hall
            obtain ⟨hnu1, hev1⟩ := b7 hnu (hall r (List.mem_cons_self r rs))
            obtain ⟨hnu2, hev2⟩ := r7 hnu1
              (fun d hd => hall d (List.mem_cons_of_mem r hd))
            refine ⟨hnu2, ?_⟩
            intro e he
            rcases List.mem_append.mp he with h9 | h9
            · exact hev1 e h9
            · exact hev2 e h9
          · intro id hall
            rw [List.countP_append, List.length_append,
              b8 id (hall r (List.mem_cons_self r rs)),
              r8 id (fun d hd => hall d (List.mem_cons_of_mem r hd))]

/-- Aggregate postcondition of the queue-draining loop: on success the
pending queue is empty, the trace has only grown by planner events, and the
callback-accounting invariants carry over. -/
theorem drain_props : ∀ (fuel : Nat) (s s' : PState), drain fuel s = Except.ok s' →
    s'.pending = [] ∧
    ∃ t na,
      s'.trace = s.trace ++ t ∧
      s'.actions = s.actions ++ na ∧
      (∀ e ∈ t, plannerEvB e = true) ∧
      (Jinv s → Jinv s') ∧
      (noUserCtrs s → (∀ d ∈ s.pending, cbOK d) → ∀ e ∈ t, isUserEv e = false) ∧
      (∀ id, (∀ d ∈ s.pending, d.onFresh = some id) →
        t.countP (freshB id) = na.length) := by
  intro fuel
  induction fuel with
  | zero =>
      intro s s' h
      simp [drain] at h
  | succ fuel ih =>
      intro s s' h
      unfold drain at h
      split at h
      · rename_i hpe
        cases h
        refine ⟨hpe, [], [], ?_, ?_, ?_, fun hj => hj, ?_, ?_⟩
        · rw [List.append_nil]
        · rw [List.append_nil]
        · intro e he
          cases he
        · intro _ _ e he
          cases he
        · exact fun id _ => rfl
      · rename_i hpe
        cases hrb : runBatch fuel (s.pending.take 4)
            { s with pending := s.pending.drop 4 } with
        | error e =>
            rw [hrb] at h
            cases h
        | ok s2 =>
            rw [hrb] at h
            obtain ⟨tB, naB, npB, b1, b2, b3, b4, b5, b6, b7, b8⟩ :=
              runBatch_props (s.pending.take 4) fuel
                { s with pending := s.pending.drop 4 } s2 hrb
            obtain ⟨hdp, tD, naD, d1, d2, d3, d4, d5, d6⟩ := ih s2 s' h
            refine ⟨hdp, tB ++ tD, naB ++ naD, ?_, ?_, ?_, ?_, ?_, ?_⟩
            · rw [d1, b1, List.append_assoc]
            · rw [d2, b2, List.append_assoc]
            · intro e he
              rcases List.mem_append.mp he with h9 | h9
              · exact b4 e h9
              · exact d3 e h9
            · exact fun hj => d4 (b6 hj)
            · intro hnu hall
              obtain ⟨hnu1, hev1⟩ := b7 hnu
                (fun d hd => hall d (List.take_subset 4 s.pending hd))
              have hall2 : ∀ d ∈ s2.pending, cbOK d := by
                intro d hd
                rw [b3] at hd
                rcases List.mem_append.mp hd with h9 | h9
                · exact hall d (List.drop_subset 4 s.pending h9)
                · obtain ⟨_, c, hc⟩ := b5 d h9
                  intro cb hcb
                  rw [hc] at hcb
                  injection hcb with hcb
                  subst hcb
                  rfl
              intro e he
              rcases List.mem_append.mp he with h9 | h9
              · exact hev1 e h9
              · exact d5 hnu1 hall2 e h9
            · intro id hall
              have hall2 : ∀ d ∈ s2.pending, d.onFresh = some id := by
                intro d hd
                rw [b3] at hd
                rcases List.mem_append.mp hd with h9 | h9
                · exact hall d (List.drop_subset 4 s.pending h9)
                · obtain ⟨⟨d0, hd0, he0⟩, _⟩ := b5 d h9
                  rw [he0]
                  exact hall d0 (List.take_subset 4 s.pending hd0)
              rw [List.countP_append, List.length_append,
                b8 id (fun d hd => hall d (List.take_subset 4 s.pending hd)),
                d6 id hall2]

/-! ### Trace shapes of the deletion pass and the executor -/

theorem doUnlinkFold_props : ∀ (l : List Path) (s : PState),
    (l.foldl doUnlink s).trace = s.trace ++ l.map Ev.unlinkE ∧
    (l.foldl doUnlink s).actions = s.actions ∧
    (l.foldl doUnlink s).pending = s.pending ∧
    (l.foldl doUnlink s).files = s.files ∧
    (l.foldl doUnlink s).extraneous = s.extraneous ∧
    (l.foldl doUnlink s).everEx = s.everEx
  | [], s => by
      refine ⟨?_, rfl, rfl, rfl, rfl, rfl⟩
      rw [List.map_nil, List.append_nil]
      rfl
  | p :: rest, s => by
      have ih := doUnlinkFold_props rest (doUnlink s p)
      refine ⟨?_, ?_, ?_, ?_, ?_, ?_⟩
      · rw [List.foldl_cons, ih.1]
        show (s.trace ++ [Ev.unlinkE p]) ++ _ = _
        rw [List.append_assoc, List.map_cons, List.singleton_append]
      · rw [List.foldl_cons]
        exact ih.2.1
      · rw [List.foldl_cons]
        exact ih.2.2.1
      · rw [List.foldl_cons]
        exact ih.2.2.2.1
      · rw [List.foldl_cons]
        exact ih.2.2.2.2.1
      · rw [List.foldl_cons]
        exact ih.2.2.2.2.2

theorem deletionPass_props (s : PState) :
    (deletionPass s).trace =
      s.trace ++ (s.extraneous.filter (fun loc => !memP loc s.files)).map Ev.unlinkE ∧
    (deletionPass s).actions = s.actions ∧
    (deletionPass s).pending = s.pending ∧
    (deletionPass s).files = s.files ∧
    (deletionPass s).extraneous = s.extraneous ∧
    (deletionPass s).everEx = s.everEx :=
  doUnlinkFold_props (s.extraneous.filter (fun loc => !memP loc s.files)) s

theorem execFileFold_props : ∀ (l : List CAction) (s : PState),
    ∃ tF, (l.foldl execFile s).trace = s.trace ++ tF ∧
      ∀ e ∈ tF, isLinkEv e = false ∧ isStartEv e = false ∧ isUserEv e = false
  | [], s => ⟨[], by rw [List.append_nil]; rfl, by intro e he; cases he⟩
  | a :: rest, s => by
      obtain ⟨tF, htr, hev⟩ := execFileFold_props rest (execFile s a)
      cases a with
      | file src dest atime mtime mode =>
          refine ⟨[Ev.readE src, Ev.writeE dest mode, Ev.utimesE dest atime mtime,
            Ev.progress dest] ++ tF, ?_, ?_⟩
          · rw [List.foldl_cons, htr]
            show (s.trace ++ _) ++ _ = _
            rw [List.append_assoc]
          · intro e he
            rcases List.mem_append.mp he with h9 | h9
            · fin_cases h9 <;> exact ⟨rfl, rfl, rfl⟩
            · exact hev e h9
      | symlink dest linkname =>
          exact ⟨tF, by rw [List.foldl_cons]; exact htr, hev⟩

theorem execLinkFold_props : ∀ (l : List CAction) (s : PState),
    ∃ tL, (l.foldl execLink s).trace = s.trace ++ tL ∧
      ∀ e ∈ tL, isCopyEv e = false ∧ isStartEv e = false ∧ isUserEv e = false
  | [], s => ⟨[], by rw [List.append_nil]; rfl, by intro e he; cases he⟩
  | a :: rest, s => by
      obtain ⟨tL, htr, hev⟩ := execLinkFold_props rest (execLink s a)
      cases a with
      | file src dest atime mtime mode =>
          exact ⟨tL, by rw [List.foldl_cons]; exact htr, hev⟩
      | symlink dest linkname =>
          refine ⟨Ev.symlinkE linkname dest :: tL, ?_, ?_⟩
          · rw [List.foldl_cons, htr]
            show (s.trace ++ _) ++ _ = _
            rw [List.append_assoc, List.singleton_append]
          · intro e he
            rcases List.mem_cons.mp he with rfl | h9
            · exact ⟨rfl, rfl, rfl⟩
            · exact hev e h9

/-- The planner's observable trace: the initial `onStart` with the number of
top-level requests, followed by planner events only. -/
theorem buildActionsForCopy_trace (fuel : Nat) (fs : FSMap) (queue : List Req)
    (seed : List Path) (acts : List CAction) (s0 : PState)
    (h : buildActionsForCopy fuel fs queue seed = Except.ok (acts, s0)) :
    ∃ tP, s0.trace = Ev.start queue.length :: tP ∧ ∀ e ∈ tP, plannerEvB e = true := by
  unfold buildActionsForCopy at h
  cases hd : drain fuel (initState fs queue seed) with
  | error e =>
      rw [hd] at h
      cases h
  | ok sd =>
      rw [hd] at h
      injection h with h
      injection h with h1 h2
      obtain ⟨_, tD, naD, d1, _, d3, _, _, _⟩ := drain_props fuel (initState fs queue seed) sd hd
      have hdel := deletionPass_props sd
      refine ⟨tD ++ (sd.extraneous.filter (fun loc => !memP loc sd.files)).map Ev.unlinkE,
        ?_, ?_⟩
      · rw [← h2, hdel.1, d1]
        show (([Ev.start queue.length] : List Ev) ++ tD) ++ _ = _
        rw [List.append_assoc, List.singleton_append]
      · intro e he
        rcases List.mem_append.mp he with h9 | h9
        · exact d3 e h9
        · obtain ⟨loc, _, rfl⟩ := List.mem_map.mp h9
          rfl

theorem plannerEv_not_link {e : Ev} (h : plannerEvB e = true) : isLinkEv e = false := by
  cases e <;> first | rfl | cases h

theorem plannerEv_not_copy {e : Ev} (h : plannerEvB e = true) : isCopyEv e = false := by
  cases e <;> first | rfl | cases h

theorem plannerEv_not_start {e : Ev} (h : plannerEvB e = true) : isStartEv e = false := by
  cases e <;> first | rfl | cases h

/-- In a concatenation whose first part has no symlink events and whose
second part has no copy events, no copy event can follow a symlink event. -/
theorem trace_split_no_cross {P L : List Ev}
    (hP : ∀ e ∈ P, isLinkEv e = false) (hL : ∀ e ∈ L, isCopyEv e = false) :
    ∀ t1 e1 t2, P ++ L = t1 ++ e1 :: t2 → isLinkEv e1 = true →
      ∀ e2 ∈ t2, isCopyEv e2 = false := by
  intro t1 e1 t2 heq hlink e2 he2
  rcases List.append_eq_append_iff.mp heq with ⟨a', _, hLa⟩ | ⟨c', hPc, hc⟩
  · exact hL e2 (hLa ▸ List.mem_append.mpr (Or.inr (List.mem_cons_of_mem e1 he2)))
  · cases c' with
    | nil =>
        rw [List.nil_append] at hc
        exact hL e2 (hc ▸ List.mem_cons_of_mem e1 he2)
    | cons x c'' =>
        injection hc with hx _
        subst hx
        have : e1 ∈ P := hPc ▸ List.mem_append.mpr (Or.inr (List.mem_cons_self e1 c''))
        rw [hP e1 this] at hlink
        cases hlink

theorem Jinv_initState (fs : FSMap) (queue : List Req) (seed : List Path) :
    Jinv (initState fs queue seed) :=
  ⟨fun _ hl => Or.inl hl, fun _ hl => hl⟩

theorem initQueue_cbOK (queue : List Req) : ∀ d ∈ initQueue queue, cbOK d := by
  intro d hd
  obtain ⟨r, _, rfl⟩ := List.mem_map.mp hd
  intro cb hcb
  injection hcb with hcb
  subst hcb
  rfl

theorem initQueue_onFresh (queue : List Req) (id : Nat)
    (hq : ∀ r ∈ queue, r.onFresh = some id) :
    ∀ d ∈ initQueue queue, d.onFresh = some id := by
  intro d hd
  obtain ⟨r, hr, rfl⟩ := List.mem_map.mp hd
  exact hq r hr

theorem mem_delMap_iff (sd : PState) (loc : Path) :
    Ev.unlinkE loc ∈ (sd.extraneous.filter (fun l => !memP l sd.files)).map Ev.unlinkE ↔
      loc ∈ sd.extraneous ∧ loc ∉ sd.files := by
  rw [List.mem_map]
  constructor
  · rintro ⟨x, hx, hinj⟩
    injection hinj with hinj
    subst hinj
    have hm := List.mem_filter.mp hx
    refine ⟨hm.1, ?_⟩
    intro hmem
    have := hm.2
    rw [(memP_iff _ _).mpr hmem] at this
    cases this
  · rintro ⟨h1, h2⟩
    refine ⟨loc, List.mem_filter.mpr ⟨h1, ?_⟩, rfl⟩
    cases hb : memP loc sd.files with
    | false => rfl
    | true => exact absurd ((memP_iff _ _).mp hb) h2

/-- C1: for every synchronization call of the planner, a destination path
accumulated as provisionally extraneous (`everEx` records the accumulation
history, seeded from `possibleExtraneousSeed`) is deleted by the final pass
exactly when it was never recorded in `files` during the walk; a path present
in `files` is never deleted by that pass; and the deletion events form a
suffix of the trace emitted only after the drain loop finished with an empty
pending queue. -/
theorem buildActions_extraneous_deletion (fuel : Nat) (fs : FSMap)
    (queue : List Req) (seed : List Path) (acts : List CAction) (s0 : PState)
    (h : buildActionsForCopy fuel fs queue seed = Except.ok (acts, s0)) :
    ∃ sd, drain fuel (initState fs queue seed) = Except.ok sd ∧
      sd.pending = [] ∧
      s0.trace = sd.trace ++
        (sd.extraneous.filter (fun loc => !memP loc sd.files)).map Ev.unlinkE ∧
      (∀ loc, (loc ∈ sd.everEx ∧ loc ∉ sd.files) ↔
        Ev.unlinkE loc ∈
          (sd.extraneous.filter (fun loc => !memP loc sd.files)).map Ev.unlinkE) ∧
      (∀ loc ∈ sd.files, Ev.unlinkE loc ∉
        (sd.extraneous.filter (fun loc => !memP loc sd.files)).map Ev.unlinkE) := by
  unfold buildActionsForCopy at h
  cases hd : drain fuel (initState fs queue seed) with
  | error e =>
      rw [hd] at h
      cases h
  | ok sd =>
      rw [hd] at h
      injection h with h
      injection h with h1 h2
      obtain ⟨hpe, tD, naD, d1, d2, d3, d4, d5, d6⟩ :=
        drain_props fuel (initState fs queue seed) sd hd
      have hJ : Jinv sd := d4 (Jinv_initState fs queue seed)
      refine ⟨sd, rfl, hpe, ?_, ?_, ?_⟩
      · rw [← h2]
        exact (deletionPass_props sd).1
      · intro loc
        rw [mem_delMap_iff]
        constructor
        · rintro ⟨h3, h4⟩
          rcases hJ.1 loc h3 with h5 | h5
          · exact ⟨h5, h4⟩
          · exact absurd h5 h4
        · rintro ⟨h3, h4⟩
          exact ⟨hJ.2 loc h3, h4⟩
      · intro loc hloc hmem
        exact ((mem_delMap_iff sd loc).mp hmem).2 hloc

/-- C2: in `copyBulk`, all file-copy I/O (byte streaming and time
application) precedes every symlink creation: in the trace of a successful
call, no copy event occurs after any symlink-creation event. -/
theorem copyBulk_files_before_symlinks (fuel : Nat) (fs : FSMap) (queue : List Req)
    (seed : List Path) (s : PState) (h : copyBulk fuel fs queue seed = Except.ok s) :
    ∀ t1 e1 t2, s.trace = t1 ++ e1 :: t2 → isLinkEv e1 = true →
      ∀ e2 ∈ t2, isCopyEv e2 = false := by
  unfold copyBulk at h
  cases hb : buildActionsForCopy fuel fs queue seed with
  | error e =>
      rw [hb] at h
      cases h
  | ok pr =>
      obtain ⟨acts, s0⟩ := pr
      rw [hb] at h
      injection h with h
      subst h
      obtain ⟨tP, htr0, hplanner⟩ := buildActionsForCopy_trace fuel fs queue seed acts s0 hb
      obtain ⟨tF, htrF, hevF⟩ := execFileFold_props (acts.filter isFileAct)
        (pushEv s0 (Ev.start acts.length))
      obtain ⟨tL, htrL, hevL⟩ := execLinkFold_props (acts.filter isLinkAct)
        ((acts.filter isFileAct).foldl execFile (pushEv s0 (Ev.start acts.length)))
      have hsplit : ((acts.filter isLinkAct).foldl execLink
          ((acts.filter isFileAct).foldl execFile (pushEv s0 (Ev.start acts.length)))).trace =
          ((s0.trace ++ [Ev.start acts.length]) ++ tF) ++ tL := by
        rw [htrL, htrF]
        rfl
      intro t1 e1 t2 heq hlink e2 he2
      rw [hsplit] at heq
      refine trace_split_no_cross ?_ ?_ t1 e1 t2 heq hlink e2 he2
      · intro e he
        rcases List.mem_append.mp he with h9 | h9
        · rcases List.mem_append.mp h9 with h8 | h8
          · rw [htr0] at h8
            rcases List.mem_cons.mp h8 with rfl | h7
            · rfl
            · exact plannerEv_not_link (hplanner e h7)
          · rw [List.mem_singleton] at h8
            subst h8
            rfl
        · exact (hevF e h9).1
      · intro e he
        exact (hevL e he).1

/-- C6 (amended): when every submitted request carries the same `onFresh`
callback, that callback fires exactly once per planned action (file or
symlink) — i.e. once per leaf that needs copying — rather than at most once
overall. -/
theorem onFresh_once_per_action (fuel : Nat) (fs : FSMap) (queue : List Req)
    (seed : List Path) (id : Nat) (acts : List CAction) (s0 : PState)
    (hq : ∀ r ∈ queue, r.onFresh = some id)
    (h : buildActionsForCopy fuel fs queue seed = Except.ok (acts, s0)) :
    s0.trace.countP (freshB id) = acts.length := by
  unfold buildActionsForCopy at h
  cases hd : drain fuel (initState fs queue seed) with
  | error e =>
      rw [hd] at h
      cases h
  | ok sd =>
      rw [hd] at h
      injection h with h
      injection h with h1 h2
      obtain ⟨hpe, tD, naD, d1, d2, d3, d4, d5, d6⟩ :=
        drain_props fuel (initState fs queue seed) sd hd
      have hdel := deletionPass_props sd
      rw [← h2, hdel.1, ← h1, hdel.2.1, d1, d2]
      rw [List.countP_append, List.countP_append]
      have hzero1 : List.countP (freshB id) (initState fs queue seed).trace = 0 := by
        rw [countP_zero_of]
        intro e he
        rcases List.mem_singleton.mp he with rfl
        rfl
      have hzero2 : List.countP (freshB id)
          ((sd.extraneous.filter (fun loc => !memP loc sd.files)).map Ev.unlinkE) = 0 := by
        rw [countP_zero_of]
        intro e he
        obtain ⟨loc, _, rfl⟩ := List.mem_map.mp he
        rfl
      rw [hzero1, hzero2, d6 id (initQueue_onFresh queue id hq)]
      show 0 + naD.length + 0 = ((initState fs queue seed).actions ++ naD).length
      rw [List.length_append]
      rfl

/-- C7 (amended): a successful `copyBulk` invokes the start callback exactly
twice — once with the number of top-level requests before planning, and once
with the total number of planned actions after planning — and both
invocations precede every copy I/O event. -/
theorem copyBulk_onStart_twice (fuel : Nat) (fs : FSMap) (queue : List Req)
    (seed : List Path) (s : PState) (h : copyBulk fuel fs queue seed = Except.ok s) :
    ∃ acts s0 tPlan tExec,
      buildActionsForCopy fuel fs queue seed = Except.ok (acts, s0) ∧
      s.trace = Ev.start queue.length :: (tPlan ++ Ev.start acts.length :: tExec) ∧
      (∀ e ∈ tPlan, isStartEv e = false ∧ isCopyEv e = false) ∧
      (∀ e ∈ tExec, isStartEv e = false) := by
  unfold copyBulk at h
  cases hb : buildActionsForCopy fuel fs queue seed with
  | error e =>
      rw [hb] at h
      cases h
  | ok pr =>
      obtain ⟨acts, s0⟩ := pr
      rw [hb] at h
      injection h with h
      subst h
      obtain ⟨tP, htr0, hplanner⟩ := buildActionsForCopy_trace fuel fs queue seed acts s0 hb
      obtain ⟨tF, htrF, hevF⟩ := execFileFold_props (acts.filter isFileAct)
        (pushEv s0 (Ev.start acts.length))
      obtain ⟨tL, htrL, hevL⟩ := execLinkFold_props (acts.filter isLinkAct)
        ((acts.filter isFileAct).foldl execFile (pushEv s0 (Ev.start acts.length)))
      refine ⟨acts, s0, tP, tF ++ tL, rfl, ?_, ?_, ?_⟩
      · rw [htrL, htrF]
        show ((pushEv s0 (Ev.start acts.length)).trace ++ tF) ++ tL = _
        rw [pushEv, htr0]
        simp [List.append_assoc]
      · intro e he
        exact ⟨plannerEv_not_start (hplanner e he), plannerEv_not_copy (hplanner e he)⟩
      · intro e he
        rcases List.mem_append.mp he with h9 | h9
        · exact (hevF e h9).2.1
        · exact (hevL e h9).2.1

/-- C10: the planner unconditionally replaces the `onDone` of every
top-level request with the progress wrapper, so a caller-supplied `onDone`
is never invoked during a successful `copyBulk` — whatever callbacks the
caller put on the submitted requests. -/
theorem copyBulk_never_calls_user_onDone (fuel : Nat) (fs : FSMap)
    (queue : List Req) (seed : List Path) (s : PState)
    (h : copyBulk fuel fs queue seed = Except.ok s) :
    ∀ id, Ev.userDone id ∉ s.trace := by
  unfold copyBulk at h
  cases hb : buildActionsForCopy fuel fs queue seed with
  | error e =>
      rw [hb] at h
      cases h
  | ok pr =>
      obtain ⟨acts, s0⟩ := pr
      rw [hb] at h
      injection h with h
      subst h
      -- the planner part of the trace is user-done free
      have hs0 : ∀ id, Ev.userDone id ∉ s0.trace := by
        unfold buildActionsForCopy at hb
        cases hd : drain fuel (initState fs queue seed) with
        | error e =>
            rw [hd] at hb
            cases hb
        | ok sd =>
            rw [hd] at hb
            injection hb with hb
            injection hb with hb1 hb2
            obtain ⟨hpe, tD, naD, d1, d2, d3, d4, d5, d6⟩ :=
              drain_props fuel (initState fs queue seed) sd hd
            have hD : ∀ e ∈ tD, isUserEv e = false := by
              refine d5 ?_ ?_
              · intro c hc
                cases hc
              · exact initQueue_cbOK queue
            intro id hid
            rw [← hb2, (deletionPass_props sd).1, d1] at hid
            rcases List.mem_append.mp hid with h9 | h9
            · rcases List.mem_append.mp h9 with h8 | h8
              · rcases List.mem_singleton.mp h8 with h7
                cases h7
              · have := hD _ h8
                cases this
            · obtain ⟨loc, _, hloc⟩ := List.mem_map.mp h9
              cases hloc
      obtain ⟨tF, htrF, hevF⟩ := execFileFold_props (acts.filter isFileAct)
        (pushEv s0 (Ev.start acts.length))
      obtain ⟨tL, htrL, hevL⟩ := execLinkFold_props (acts.filter isLinkAct)
        ((acts.filter isFileAct).foldl execFile (pushEv s0 (Ev.start acts.length)))
      intro id hid
      rw [htrL, htrF] at hid
      rcases List.mem_append.mp hid with h9 | h9
      · rcases List.mem_append.mp h9 with h8 | h8
        · have h7 : Ev.userDone id ∈ s0.trace ++ [Ev.start acts.length] := h8
          rcases List.mem_append.mp h7 with h6 | h6
          · exact hs0 id h6
          · rcases List.mem_singleton.mp h6 with h5
            cases h5
        · have := (hevF _ h8).2.2
          cases this
      · have := (hevL _ h9).2.2
        cases this

theorem lstat_unlinkFS_of_not (fs : FSMap) (p q : Path) (h : ¬ p.IsPrefix q) :
    lstatFS (unlinkFS fs p) q = lstatFS fs q := by
  induction fs with
  | nil => rfl
  | cons e rest ih =>
      unfold unlinkFS at ih ⊢
      rw [List.filter_cons]
      split
      · unfold lstatFS
        rw [List.find?_cons, List.find?_cons]
        split
        · rfl
        · exact ih
      · rename_i hdrop
        rw [decide_eq_true_eq, not_not] at hdrop
        have hne : decide (e.1 = q) = false := by
          rw [decide_eq_false_iff_not]
          intro hq
          exact h (hq ▸ hdrop)
        unfold lstatFS
        rw [List.find?_cons, hne]
        exact ih

/-- C3: for a request whose source and destination are both regular files of
identical size and modification time, `build` succeeds without emitting any
action, without enqueuing children, and without touching the filesystem; its
trace extension contains no content read, and the request's `onDone` (the
progress wrapper for a top-level request) fires. -/
theorem build_unchanged_file_skip (fuel : Nat) (data : Req) (s : PState)
    (srcStat destStat : Stat)
    (hsrc : lstatFS s.fs data.src = some srcStat)
    (hdest : lstatFS s.fs data.dest = some destStat)
    (hsk : srcStat.kind = FKind.file) (hdk : destStat.kind = FKind.file)
    (hsize : srcStat.size = destStat.size) (hmtime : srcStat.mtime = destStat.mtime) :
    ∃ s', build (Nat.succ fuel) data s = Except.ok s' ∧
      s'.actions = s.actions ∧
      s'.pending = s.pending ∧
      s'.fs = s.fs ∧
      ∃ tNew, s'.trace = s.trace ++ tNew ∧
        (∀ p, Ev.readE p ∉ tNew) ∧
        (∀ d, data.onDone = some (DoneCB.progress d) → Ev.progress d ∈ tNew) := by
  have hsrc' : lstatFS (addFile s data.dest).fs data.src = some srcStat := hsrc
  have hdest' : lstatFS (addFile s data.dest).fs data.dest = some destStat := hdest
  have hbf : bothFilesB srcStat destStat = true := by
    simp [bothFilesB, hsk, hdk]
  have hskip : ∀ (sf : List String) (s2 : PState),
      skipChecks (Nat.succ fuel) data srcStat destStat sf s2 =
        (runDone (Nat.succ fuel) (donecb data) s2, true) := by
    intro sf s2
    unfold skipChecks
    rw [if_pos (by simp [hbf, hsize, hmtime])]
  have hnmm : ¬(srcStat.mode ≠ destStat.mode ∧ bothFilesB srcStat destStat = false) := by
    rintro ⟨_, hf⟩
    rw [hbf] at hf
    cases hf
  by_cases hmode : srcStat.mode ≠ destStat.mode
  · have hb : build (Nat.succ fuel) data s = Except.ok (runDone (Nat.succ fuel)
        (donecb data) (pushEv (addFile s data.dest) (Ev.accessE data.dest srcStat.mode))) := by
      simp only [build, hsrc', hdest', if_neg hnmm, if_pos hmode, hskip]
    set s2 : PState := pushEv (addFile s data.dest) (Ev.accessE data.dest srcStat.mode)
      with hs2
    obtain ⟨e1, e2, e3, e4, e5, e6, e7, e8, td, htd, htp, htu⟩ :=
      runDone_props (Nat.succ fuel) (donecb data) s2
    refine ⟨_, hb, e5, e6, e1, Ev.accessE data.dest srcStat.mode :: td, ?_, ?_, ?_⟩
    · rw [htd]
      show (s.trace ++ [Ev.accessE data.dest srcStat.mode]) ++ td = _
      rw [List.append_assoc, List.singleton_append]
    · intro p hp
      rcases List.mem_cons.mp hp with h9 | h9
      · cases h9
      · have := (htp _ h9).1
        cases this
    · intro d hd
      have hdc : donecb data = DoneCB.progress d := by
        rw [donecb, hd]
        rfl
      have htr2 : (runDone (Nat.succ fuel) (donecb data) s2).trace =
          s2.trace ++ [Ev.progress d] := by
        rw [hdc]
        rfl
      rw [htr2] at htd
      have : td = [Ev.progress d] := List.append_cancel_left htd.symm
      rw [this]
      exact List.mem_cons_of_mem _ (List.mem_singleton.mpr rfl)
  · have hb : build (Nat.succ fuel) data s = Except.ok (runDone (Nat.succ fuel)
        (donecb data) (addFile s data.dest)) := by
      simp only [build, hsrc', hdest', if_neg hnmm, if_neg hmode, hskip]
    obtain ⟨e1, e2, e3, e4, e5, e6, e7, e8, td, htd, htp, htu⟩ :=
      runDone_props (Nat.succ fuel) (donecb data) (addFile s data.dest)
    refine ⟨_, hb, e5, e6, e1, td, htd, ?_, ?_⟩
    · intro p hp
      have := (htp _ hp).1
      cases this
    · intro d hd
      have hdc : donecb data = DoneCB.progress d := by
        rw [donecb, hd]
        rfl
      have htr2 : (runDone (Nat.succ fuel) (donecb data) (addFile s data.dest)).trace =
          (addFile s data.dest).trace ++ [Ev.progress d] := by
        rw [hdc]
        rfl
      rw [htr2] at htd
      have : td = [Ev.progress d] := List.append_cancel_left htd.symm
      rw [this]
      exact List.mem_singleton.mpr rfl

/-- C5: when the source and destination modes differ and it is not the
both-regular-files case, `build` removes the destination from the extraneous
set, recursively deletes the whole destination subtree, and re-runs the
classification from scratch on the same request; in particular when the
source is a regular file the re-run replaces the destination with a planned
file copy of the source. -/
theorem build_mode_mismatch_replaces_dest (fuel : Nat) (data : Req) (s : PState)
    (srcStat destStat : Stat)
    (hsrc : lstatFS s.fs data.src = some srcStat)
    (hdest : lstatFS s.fs data.dest = some destStat)
    (hmode : srcStat.mode ≠ destStat.mode)
    (hnb : ¬(srcStat.kind = FKind.file ∧ destStat.kind = FKind.file)) :
    build (Nat.succ (Nat.succ fuel)) data s =
      build (Nat.succ fuel) data
        (doUnlink (delExtra (addFile s data.dest) data.dest) data.dest) ∧
    (∀ q : Path, data.dest.IsPrefix q →
      lstatFS (doUnlink (delExtra (addFile s data.dest) data.dest) data.dest).fs q
        = none) ∧
    data.dest ∉
      (doUnlink (delExtra (addFile s data.dest) data.dest) data.dest).extraneous ∧
    (srcStat.kind = FKind.file → ¬ data.dest.IsPrefix data.src →
      ∃ s', build (Nat.succ (Nat.succ fuel)) data s = Except.ok s' ∧
        s'.actions = s.actions ++
          [CAction.file data.src data.dest srcStat.atime srcStat.mtime srcStat.mode]) := by
  have hsrc' : lstatFS (addFile s data.dest).fs data.src = some srcStat := hsrc
  have hdest' : lstatFS (addFile s data.dest).fs data.dest = some destStat := hdest
  have hbf : bothFilesB srcStat destStat = false := by
    cases h1 : decide (srcStat.kind = FKind.file) with
    | false =>
        unfold bothFilesB
        rw [h1]
        rfl
    | true =>
        cases h2 : decide (destStat.kind = FKind.file) with
        | false =>
            unfold bothFilesB
            rw [h1, h2]
            rfl
        | true =>
            exact absurd ⟨of_decide_eq_true h1, of_decide_eq_true h2⟩ hnb
  have hmm : srcStat.mode ≠ destStat.mode ∧ bothFilesB srcStat destStat = false :=
    ⟨hmode, hbf⟩
  have hstep : build (Nat.succ (Nat.succ fuel)) data s =
      build (Nat.succ fuel) data
        (doUnlink (delExtra (addFile s data.dest) data.dest) data.dest) := by
    simp only [build, hsrc', hdest', if_pos hmm]
  refine ⟨hstep, ?_, ?_, ?_⟩
  · intro q hq
    exact lstat_unlinkFS_of_pre _ data.dest q hq
  · intro hmem
    have hmem' : data.dest ∈
        (addFile s data.dest).extraneous.filter (fun q => decide (q ≠ data.dest)) := hmem
    have := (List.mem_filter.mp hmem').2
    rw [decide_eq_true_eq] at this
    exact this rfl
  · intro hfile hnp
    set sU : PState := doUnlink (delExtra (addFile s data.dest) data.dest) data.dest
      with hsU
    have hsrcU : lstatFS (addFile sU data.dest).fs data.src = some srcStat := by
      show lstatFS (unlinkFS (addFile s data.dest).fs data.dest) data.src = some srcStat
      rw [lstat_unlinkFS_of_not _ _ _ hnp]
      exact hsrc'
    have hdestU : lstatFS (addFile sU data.dest).fs data.dest = none := by
      show lstatFS (unlinkFS (addFile s data.dest).fs data.dest) data.dest = none
      exact lstat_unlinkFS_of_pre _ _ _ (List.prefix_refl data.dest)
    have hnotdir : ¬ (srcStat.kind = FKind.dir) := by
      rw [hfile]
      intro hcon
      cases hcon
    have hb2 : build (Nat.succ fuel) data sU =
        dispatch (Nat.succ fuel) data srcStat [] (addFile sU data.dest) := by
      simp only [build, hsrcU, hdestU, if_neg hnotdir]
    have hb3 : dispatch (Nat.succ fuel) data srcStat [] (addFile sU data.dest) =
        Except.ok (runDone (Nat.succ fuel) (donecb data)
          (pushAction (runFresh (addFile sU data.dest) data.onFresh)
            (CAction.file data.src data.dest srcStat.atime srcStat.mtime srcStat.mode))) := by
      unfold dispatch
      rw [hfile]
    obtain ⟨e1, e2, e3, e4, e5, e6, e7, e8, td, htd, htp, htu⟩ :=
      runDone_props (Nat.succ fuel) (donecb data)
        (pushAction (runFresh (addFile sU data.dest) data.onFresh)
          (CAction.file data.src data.dest srcStat.atime srcStat.mtime srcStat.mode))
    refine ⟨runDone (Nat.succ fuel) (donecb data)
        (pushAction (runFresh (addFile sU data.dest) data.onFresh)
          (CAction.file data.src data.dest srcStat.atime srcStat.mtime srcStat.mode)),
        ?_, ?_⟩
    · rw [hstep, hb2]
      exact hb3
    · rw [e5]
      cases hf : data.onFresh <;> rfl

/-! ## Concrete fixtures -/

def fileStat (mode size mtime : Nat) : Stat :=
  { kind := FKind.file, mode := mode, size := size, atime := 1, mtime := mtime }

def dirStat : Stat :=
  { kind := FKind.dir, mode := 493, size := 0, atime := 0, mtime := 0 }

def linkStat (target : Path) : Stat :=
  { kind := FKind.symlink, mode := 511, size := 0, atime := 0, mtime := 0,
    target := target }

/-- Source tree with two regular files and two symlinks, empty destination. -/
def fsA : FSMap :=
  [(["s"], dirStat), (["s", "a"], fileStat 420 3 5), (["s", "b"], fileStat 420 4 6),
   (["s", "l"], linkStat ["s", "a"]), (["s", "m"], linkStat ["s", "b"])]

def qA : List Req :=
  [{ src := ["s"], dest := ["d"], onFresh := some 7, onDone := some (DoneCB.user 9) }]

def runA : PState :=
  match copyBulk 20 fsA qA [] with
  | Except.ok s => s
  | Except.error _ => initState fsA qA []

def planA : List CAction × PState :=
  match buildActionsForCopy 20 fsA qA [] with
  | Except.ok pr => pr
  | Except.error _ => ([], initState fsA qA [])

/-- Mirrored tree with two extraneous destination entries (`d/x`, and the
directory `d/y` with child `d/y/z`). -/
def fsB : FSMap :=
  [(["s"], dirStat), (["s", "a"], fileStat 420 3 5),
   (["d"], dirStat), (["d", "a"], fileStat 420 3 5), (["d", "x"], fileStat 1 1 1),
   (["d", "y"], dirStat), (["d", "y", "z"], fileStat 2 2 2)]

def qB : List Req := [{ src := ["s"], dest := ["d"] }]

def planB : List CAction × PState :=
  match buildActionsForCopy 20 fsB qB [] with
  | Except.ok pr => pr
  | Except.error _ => ([], initState fsB qB [])

def sdB : PState :=
  match drain 20 (initState fsB qB []) with
  | Except.ok sd => sd
  | Except.error _ => initState fsB qB []

theorem c1_witness : planB.2.trace = sdB.trace ++ [Ev.unlinkE ["d", "x"],
      Ev.unlinkE ["d", "y"], Ev.unlinkE ["d", "y", "z"]] ∧
    Ev.unlinkE ["d", "a"] ∉ planB.2.trace := by
  obtain ⟨sd, h1, h2, h3, h4, h5⟩ :=
    buildActions_extraneous_deletion 20 fsB qB [] planB.1 planB.2 rfl
  have hsd : sd = sdB := by
    have h1' : Except.ok sd = Except.ok sdB := h1.symm.trans rfl
    injection h1'
  subst hsd
  constructor
  · rw [h3]
    rfl
  · intro hmem
    rw [h3] at hmem
    rcases List.mem_append.mp hmem with h9 | h9
    · revert h9
      decide
    · have := ((mem_delMap_iff sdB ["d", "a"]).mp h9).2
      exact this (by decide)

theorem c2_witness : isCopyEv (Ev.symlinkE ["s", "b"] ["d", "m"]) = false :=
  copyBulk_files_before_symlinks 20 fsA qA [] runA rfl
    (runA.trace.take (runA.trace.length - 2)) (Ev.symlinkE ["s", "a"] ["d", "l"])
    [Ev.symlinkE ["s", "b"] ["d", "m"]] (by decide) rfl
    (Ev.symlinkE ["s", "b"] ["d", "m"]) (List.mem_singleton.mpr rfl)

def reqC : Req :=
  { src := ["s", "a"], dest := ["d", "a"], onFresh := none,
    onDone := some (DoneCB.progress ["d", "a"]) }

def sC : PState := initState fsB [] []

theorem c3_witness :
    (match build 6 reqC sC with
     | Except.ok s' => s'.actions
     | Except.error _ => [CAction.symlink [] []]) = [] ∧
    (match build 6 reqC sC with
     | Except.ok s' => Ev.progress ["d", "a"] ∈ s'.trace
     | Except.error _ => False) := by
  obtain ⟨s', hb, hac, hpe, hfs, tNew, htr, hnoread, hprog⟩ :=
    build_unchanged_file_skip 5 reqC sC (fileStat 420 3 5) (fileStat 420 3 5)
      rfl rfl rfl rfl rfl rfl
  rw [hb]
  constructor
  · exact hac
  · show Ev.progress ["d", "a"] ∈ s'.trace
    rw [htr]
    exact List.mem_append.mpr (Or.inr (hprog _ rfl))

/-- Mode-mismatch fixture: the destination entry is a directory while the
source entry is now a regular file. -/
def fsC5 : FSMap :=
  [(["s"], dirStat), (["s", "a"], fileStat 420 3 5),
   (["d"], dirStat), (["d", "a"], dirStat), (["d", "a", "w"], fileStat 9 9 9)]

def reqC5 : Req := { src := ["s", "a"], dest := ["d", "a"] }

def sC5 : PState := initState fsC5 [] []

theorem c5_witness :
    (match build 7 reqC5 sC5 with
     | Except.ok s' => s'.actions
     | Except.error _ => []) = [CAction.file ["s", "a"] ["d", "a"] 1 5 420] ∧
    lstatFS (doUnlink (delExtra (addFile sC5 ["d", "a"]) ["d", "a"]) ["d", "a"]).fs
      ["d", "a", "w"] = none := by
  obtain ⟨h1, h2, h3, h4⟩ :=
    build_mode_mismatch_replaces_dest 5 reqC5 sC5 (fileStat 420 3 5) dirStat
      rfl rfl (by decide) (by decide)
  obtain ⟨s', hb, hac⟩ := h4 rfl (by decide)
  constructor
  · rw [hb]
    exact hac
  · exact h2 ["d", "a", "w"] (by decide)

/-- Both-files mode mismatch fixture for the `access` slip: the destination
file has mode 365 where the source has 420, with equal size and mtime. -/
def fsC4 : FSMap :=
  [(["s"], dirStat), (["s", "a"], fileStat 420 3 5),
   (["d"], dirStat), (["d", "a"], fileStat 365 3 5)]

def qC4 : List Req := [{ src := ["s"], dest := ["d"] }]

def planC4 : List CAction × PState :=
  match buildActionsForCopy 20 fsC4 qC4 [] with
  | Except.ok pr => pr
  | Except.error _ => ([], initState fsC4 qC4 [])

/-- C4: the code's `access(dest, srcStat.mode)` is `fs.access` — a permission
probe, not a `chmod` — so after planning over a destination file whose mode
(365) differs from the source's (420), the destination's mode is unchanged,
the filesystem is untouched, no action is emitted, and the only evidence of
the branch is the access event.  The claimed in-place mode repair does not
happen. -/
theorem access_leaves_dest_mode_unchanged :
    buildActionsForCopy 20 fsC4 qC4 [] = Except.ok (planC4.1, planC4.2) ∧
    planC4.1 = [] ∧
    Ev.accessE ["d", "a"] 420 ∈ planC4.2.trace ∧
    lstatFS planC4.2.fs ["d", "a"] = some (fileStat 365 3 5) ∧
    ¬ (fileStat 365 3 5).mode = (fileStat 420 3 5).mode ∧
    planC4.2.fs = fsC4 := by
  refine ⟨rfl, rfl, by decide, rfl, by decide, rfl⟩

/-- C6 (counterexample): with one submitted request whose source holds four
fresh leaves, the `onFresh` callback fires four times, not exactly once. -/
theorem onFresh_fires_per_leaf_cex :
    copyBulk 20 fsA qA [] = Except.ok runA ∧
    runA.trace.countP (freshB 7) = 4 ∧
    ¬ runA.trace.countP (freshB 7) = 1 := by
  refine ⟨rfl, rfl, by decide⟩

theorem c6_witness : planA.2.trace.countP (freshB 7) = planA.1.length :=
  onFresh_once_per_action 20 fsA qA [] 7 planA.1 planA.2 (by decide) rfl

/-- C7 (counterexample): `copyBulk` fires the start callback twice (once
inside `buildActionsForCopy` with the request count, once with the action
count), not exactly once. -/
theorem onStart_not_once_cex :
    copyBulk 20 fsA qA [] = Except.ok runA ∧
    runA.trace.countP isStartEv = 2 ∧
    ¬ runA.trace.countP isStartEv = 1 := by
  refine ⟨rfl, rfl, by decide⟩

theorem c7_witness : runA.trace.countP isStartEv = 2 := by
  obtain ⟨acts, s0, tPlan, tExec, h1, h2, h3, h4⟩ :=
    copyBulk_onStart_twice 20 fsA qA [] runA rfl
  rw [h2, List.countP_cons, List.countP_append, List.countP_cons,
    countP_zero_of (fun e he => (h3 e he).1), countP_zero_of h4]
  rfl

theorem c10_witness : Ev.userDone 9 ∉ runA.trace :=
  copyBulk_never_calls_user_onDone 20 fsA qA [] runA rfl 9

/-! ## The symlink materializer (`symlink`)

The filesystem primitives it calls are external and racy (the destination can
be created or removed concurrently), so one run is modelled against an oracle:
a list of `SymAttempt`s, one per pass, fixing the outcome of each primitive
call in that pass. -/

/-- Error codes distinguished by `symlink`. -/
inductive ECode
  | ENOENT
  | EEXIST
  | EPERM
  | EOTHER
deriving DecidableEq

instance : DecidableEq (Except ECode Stat) := fun a b =>
  match a, b with
  | Except.error e1, Except.error e2 =>
      if h : e1 = e2 then Decidable.isTrue (h ▸ rfl)
      else Decidable.isFalse (fun hc => h (Except.error.inj hc))
  | Except.ok v1, Except.ok v2 =>
      if h : v1 = v2 then Decidable.isTrue (h ▸ rfl)
      else Decidable.isFalse (fun hc => h (Except.ok.inj hc))
  | Except.error _, Except.ok _ => Decidable.isFalse (fun hc => Except.noConfusion hc)
  | Except.ok _, Except.error _ => Decidable.isFalse (fun hc => Except.noConfusion hc)

/-- Primitive outcomes for one pass of the `symlink` operation. -/
structure SymAttempt where
  destLstat : Except ECode Stat   -- `lstat(dest)`
  destExists : Bool               -- `exists(dest)` (follows links)
  destReal : Path                 -- `realpath(dest)`
  unlinkRes : Option ECode        -- `unlink(dest)` (`none` = success)
  createRes : Option ECode        -- `fsSymlink(…, dest)` (`none` = success)
deriving DecidableEq

/-- Observable steps of the materializer. -/
inductive SymEv
  | removedDest (p : Path)
  | createAttempt (target : Path) (dest : Path) (junction : Bool)
  | noopReturn
deriving DecidableEq

inductive SymErr
  | noFuel
  | ec (e : ECode)
deriving DecidableEq

/-- `path.dirname` on component lists. -/
def dirnameP (p : Path) : Path := p.dropLast

/-- `path.relative(f, t)` for normalized component paths: strip the common
prefix, then one `..` per remaining component of `f`, then the rest of `t`. -/
def relativeP : Path → Path → Path
  | [], t => t
  | f, [] => f.map (fun _ => "..")
  | a :: as, b :: bs =>
      if a = b then relativeP as bs
      else ((a :: as).map (fun _ => "..")) ++ (b :: bs)

/-- The first `try` block of `symlink`: `lstat(dest)`; if the destination is
a symlink that exists and resolves to `src`, return (no-op); otherwise
`unlink(dest)`.  `ENOENT` anywhere in the block is swallowed (proceed to
creation); any other error propagates. -/
inductive PreRes
  | ret
  | cont (tr : List SymEv)
  | err (e : ECode)
deriving DecidableEq

def prePhase (a : SymAttempt) (src dest : Path) : PreRes :=
  match a.destLstat with
  | Except.error e => if e = ECode.ENOENT then PreRes.cont [] else PreRes.err e
  | Except.ok stats =>
      if stats.kind = FKind.symlink ∧ a.destExists = true ∧ a.destReal = src then
        PreRes.ret
      else
        match a.unlinkRes with
        | none => PreRes.cont [SymEv.removedDest dest]
        | some e => if e = ECode.ENOENT then PreRes.cont [] else PreRes.err e

/-- The `symlink(src, dest)` materializer.  On win32 an absolute junction is
created; otherwise a relative link.  An `EEXIST` creation failure re-runs the
whole operation (recursively, consuming the next oracle attempt); any other
creation failure is fatal. -/
def symlinkM : Nat → Path → Path → Bool → List SymAttempt → List SymEv →
    Except SymErr (List SymEv)
  | 0, _, _, _, _, _ => Except.error SymErr.noFuel
  | Nat.succ fuel, src, dest, win, attempts, tr =>
      match attempts with
      | [] => Except.error SymErr.noFuel
      | a :: rest =>
          match prePhase a src dest with
          | PreRes.ret => Except.ok (tr ++ [SymEv.noopReturn])
          | PreRes.err e => Except.error (SymErr.ec e)
          | PreRes.cont tr0 =>
              let target := if win then src else relativeP (dirnameP dest) src
              let tr2 := tr ++ tr0 ++ [SymEv.createAttempt target dest win]
              match a.createRes with
              | none => Except.ok tr2
              | some e =>
                  if e = ECode.EEXIST then symlinkM fuel src dest win rest tr2
                  else Except.error (SymErr.ec e)

def isCreateEv : SymEv → Bool
  | SymEv.createAttempt _ _ _ => true
  | _ => false

def countCreate (r : Except SymErr (List SymEv)) : Nat :=
  match r with
  | Except.ok tr => tr.countP isCreateEv
  | Except.error _ => 0

/-- A pass whose creation step loses the already-exists race. -/
def aExistC8 : SymAttempt :=
  { destLstat := Except.error ECode.ENOENT, destExists := false, destReal := [],
    unlinkRes := none, createRes := some ECode.EEXIST }

/-- A pass whose creation step succeeds. -/
def aOkC8 : SymAttempt :=
  { destLstat := Except.error ECode.ENOENT, destExists := false, destReal := [],
    unlinkRes := none, createRes := none }

/-- An oracle in which creation loses the already-exists race twice before
succeeding. -/
def attemptsC8 : List SymAttempt := [aExistC8, aExistC8, aOkC8]

/-- C8 (counterexample): when the already-exists race is lost twice in a row,
the operation retries twice — three creation attempts in total — so the
retry is not bounded by one. -/
theorem symlink_retry_unbounded_cex :
    countCreate (symlinkM 9 ["x"] ["p", "l"] false attemptsC8 []) = 3 ∧
    ¬ countCreate (symlinkM 9 ["x"] ["p", "l"] false attemptsC8 []) ≤ 2 := by
  refine ⟨rfl, by decide⟩

/-- C8 (amended): an `EEXIST` creation failure re-runs the whole operation
from the beginning, with no retry limit; any other creation failure is fatal;
a non-`ENOENT` error from `lstat(dest)` or from removing the existing
destination is fatal. -/
theorem symlink_retry_props (fuel : Nat) (src dest : Path) (win : Bool)
    (a : SymAttempt) (rest : List SymAttempt) (tr : List SymEv) :
    (∀ tr0, prePhase a src dest = PreRes.cont tr0 →
      a.createRes = some ECode.EEXIST →
      symlinkM (Nat.succ fuel) src dest win (a :: rest) tr =
        symlinkM fuel src dest win rest
          (tr ++ tr0 ++ [SymEv.createAttempt
            (if win then src else relativeP (dirnameP dest) src) dest win])) ∧
    (∀ tr0 e, prePhase a src dest = PreRes.cont tr0 → a.createRes = some e →
      ¬ e = ECode.EEXIST →
      symlinkM (Nat.succ fuel) src dest win (a :: rest) tr =
        Except.error (SymErr.ec e)) ∧
    (∀ e, a.destLstat = Except.error e → ¬ e = ECode.ENOENT →
      symlinkM (Nat.succ fuel) src dest win (a :: rest) tr =
        Except.error (SymErr.ec e)) ∧
    (∀ stats e, a.destLstat = Except.ok stats →
      ¬(stats.kind = FKind.symlink ∧ a.destExists = true ∧ a.destReal = src) →
      a.unlinkRes = some e → ¬ e = ECode.ENOENT →
      symlinkM (Nat.succ fuel) src dest win (a :: rest) tr =
        Except.error (SymErr.ec e)) := by
  refine ⟨?_, ?_, ?_, ?_⟩
  · intro tr0 hpre hc
    simp only [symlinkM, hpre, hc]
    simp
  · intro tr0 e hpre hc hne
    simp only [symlinkM, hpre, hc, if_neg hne]
  · intro e hl hne
    have hpre : prePhase a src dest = PreRes.err e := by
      simp only [prePhase, hl, if_neg hne]
    simp only [symlinkM, hpre]
  · intro stats e hl hnoop hu hne
    have hpre : prePhase a src dest = PreRes.err e := by
      simp only [prePhase, hl, if_neg hnoop, hu, if_neg hne]
    simp only [symlinkM, hpre]

def aPermC8 : SymAttempt :=
  { destLstat := Except.ok (fileStat 420 3 5), destExists := true, destReal := [],
    unlinkRes := some ECode.EPERM, createRes := none }

theorem c8_witness :
    symlinkM 5 ["x"] ["p", "l"] false [aPermC8] [] =
      Except.error (SymErr.ec ECode.EPERM) ∧
    symlinkM 5 ["x"] ["p", "l"] false attemptsC8 [] =
      symlinkM 4 ["x"] ["p", "l"] false [aExistC8, aOkC8]
        [SymEv.createAttempt (relativeP (dirnameP ["p", "l"]) ["x"]) ["p", "l"] false] := by
  constructor
  · exact (symlink_retry_props 4 ["x"] ["p", "l"] false aPermC8 [] []).2.2.2
      (fileStat 420 3 5) ECode.EPERM rfl (by decide) rfl (by decide)
  · exact (symlink_retry_props 4 ["x"] ["p", "l"] false
      aExistC8 [aExistC8, aOkC8] []).1 [] rfl rfl

/-! ## The path walker (`walk`) -/

inductive WErr
  | noFuel
  | listFail (p : Path)   -- `readdir` failed (missing or not a directory)
  | statFail (p : Path)   -- `lstat` of a listed entry failed
deriving DecidableEq

/-- `relativeDir ? path.join(relativeDir, name) : name`. -/
def relOf (relativeDir : Option Path) (name : String) : Path :=
  match relativeDir with
  | some r => r ++ [name]
  | none => [name]

/-- One element of `WalkFiles`. -/
structure WalkEntry where
  relative : Path
  absolute : Path
  basename : String
  mtime : Nat
deriving DecidableEq

/-- The entry pushed by `walk` for one listed name. -/
def mkWalkEntry (relativeDir : Option Path) (dir : Path) (name : String)
    (mtime : Nat) : WalkEntry :=
  { relative := relOf relativeDir name, absolute := dir ++ [name],
    basename := name, mtime := mtime }

@[simp] theorem mkWalkEntry_absolute (rel : Option Path) (dir : Path)
    (name : String) (mt : Nat) : (mkWalkEntry rel dir name mt).absolute = dir ++ [name] :=
  rfl

@[simp] theorem mkWalkEntry_relative (rel : Option Path) (dir : Path)
    (name : String) (mt : Nat) : (mkWalkEntry rel dir name mt).relative = relOf rel name :=
  rfl

@[simp] theorem mkWalkEntry_basename (rel : Option Path) (dir : Path)
    (name : String) (mt : Nat) : (mkWalkEntry rel dir name mt).basename = name :=
  rfl

@[simp] theorem mkWalkEntry_mtime (rel : Option Path) (dir : Path)
    (name : String) (mt : Nat) : (mkWalkEntry rel dir name mt).mtime = mt :=
  rfl

/-- The `for (let name of filenames)` loop body of `walk`, abstracted over
the recursive call (`walkRec`) used for subdirectories. -/
def walkLoop (walkRec : FSMap → Path → Option Path → Option (List String) →
    Except WErr (List WalkEntry)) (fs : FSMap) (dir : Path)
    (relativeDir : Option Path) (ign : Option (List String)) :
    List String → Except WErr (List WalkEntry)
  | [] => Except.ok []
  | name :: rest =>
      match lstatFS fs (dir ++ [name]) with
      | none => Except.error (WErr.statFail (dir ++ [name]))
      | some st =>
          if st.kind = FKind.dir then
            match walkRec fs (dir ++ [name]) (some (relOf relativeDir name)) ign with
            | Except.error e => Except.error e
            | Except.ok sub =>
                match walkLoop walkRec fs dir relativeDir ign rest with
                | Except.error e => Except.error e
                | Except.ok more =>
                    Except.ok (mkWalkEntry relativeDir dir name st.mtime :: (sub ++ more))
          else
            match walkLoop walkRec fs dir relativeDir ign rest with
            | Except.error e => Except.error e
            | Except.ok more =>
                Except.ok (mkWalkEntry relativeDir dir name st.mtime :: more)

/-- `walk(dir, relativeDir, ignoreBasenames)`: list `dir`, filter out ignored
base names, then walk the entries depth-first (each directory entry is
followed immediately by its own recursive listing).  The fuel bounds the
recursion depth. -/
def walkM : Nat → FSMap → Path → Option Path → Option (List String) →
    Except WErr (List WalkEntry)
  | 0, _, _, _, _ => Except.error WErr.noFuel
  | Nat.succ fuel, fs, dir, relativeDir, ignoreBasenames =>
      match lstatFS fs dir with
      | none => Except.error (WErr.listFail dir)
      | some st =>
          if st.kind = FKind.dir then
            walkLoop (fun fs2 d2 r2 i2 => walkM fuel fs2 d2 r2 i2)
              fs dir relativeDir ignoreBasenames
              (match ignoreBasenames with
               | some ign => (readdirFS fs dir).filter (fun n => !decide (n ∈ ign))
               | none => readdirFS fs dir)
          else Except.error (WErr.listFail dir)

/-- `a :: l₁ <+: b :: l₂` unfolded. -/
theorem consPre {a b : String} {l1 l2 : List String} :
    (a :: l1).IsPrefix (b :: l2) ↔ a = b ∧ l1.IsPrefix l2 := by
  constructor
  · rintro ⟨t, ht⟩
    injection ht with h1 h2
    exact ⟨h1, t, h2⟩
  · rintro ⟨rfl, t, ht⟩
    exact ⟨t, by rw [List.cons_append, ht]⟩

theorem appendPreCancel (l : Path) : ∀ {a b : Path},
    ((l ++ a).IsPrefix (l ++ b) ↔ a.IsPrefix b) := by
  induction l with
  | nil => exact fun {a b} => Iff.rfl
  | cons x xs ih =>
      intro a b
      rw [List.cons_append, List.cons_append, consPre]
      simp only [true_and]
      exact ih

theorem childName_eq {p k : Path} {n : String} (h : childName p k = some n) :
    k = p ++ [n] := by
  unfold childName at h
  split at h
  · rename_i hcond
    obtain ⟨hne, hdl⟩ := hcond
    have hlast := List.getLast?_eq_getLast k hne
    rw [hlast] at h
    injection h with h
    have := List.dropLast_append_getLast hne
    rw [← this, hdl, h]
  · cases h

theorem readdirFS_nodup (fs : FSMap) (hfs : (fs.map Prod.fst).Nodup) (p : Path) :
    (readdirFS fs p).Nodup := by
  unfold readdirFS
  refine List.Nodup.filterMap ?_ hfs
  intro a b c hca hcb
  rw [childName_eq hca, childName_eq hcb]

/-- Depth-first ordering: whenever `b` is listed after `a`, `b` is not a
strict ancestor of `a`. -/
def noLaterAncestor (a b : WalkEntry) : Prop :=
  b.absolute.IsPrefix a.absolute → b.absolute = a.absolute

/-- What `walk` guarantees of a single returned entry, relative to the root
`dir` of the call: its absolute path extends `dir` by a nonempty suffix,
the relative path extends the call's relative prefix by the same suffix, the
base name is the suffix's last component, the recorded mtime matches the
entry's stat, and no component of the suffix is an ignored base name. -/
def EntrySpec (fs : FSMap) (dir : Path) (rel : Option Path)
    (ign : Option (List String)) (e : WalkEntry) (suf : Path) : Prop :=
  suf ≠ [] ∧ e.absolute = dir ++ suf ∧ e.relative = rel.getD [] ++ suf ∧
  suf.getLast? = some e.basename ∧
  (∃ st, lstatFS fs e.absolute = some st ∧ e.mtime = st.mtime) ∧
  (∀ ign', ign = some ign' → ∀ c ∈ suf, c ∉ ign')

def WalkSpec (fs : FSMap) (dir : Path) (rel : Option Path)
    (ign : Option (List String)) (es : List WalkEntry) : Prop :=
  (∀ e ∈ es, ∃ suf, EntrySpec fs dir rel ign e suf) ∧
  es.Pairwise noLaterAncestor

def LoopSpec (fs : FSMap) (dir : Path) (rel : Option Path)
    (ign : Option (List String)) (names : List String)
    (es : List WalkEntry) : Prop :=
  (∀ e ∈ es, ∃ n suf2, n ∈ names ∧ EntrySpec fs dir rel ign e (n :: suf2)) ∧
  es.Pairwise noLaterAncestor

theorem relOf_eq (rel : Option Path) (name : String) :
    relOf rel name = rel.getD [] ++ [name] := by
  cases rel <;> rfl

theorem getLast?_cons_of_ne {a : String} {l : List String} (h : l ≠ []) :
    (a :: l).getLast? = l.getLast? := by
  cases l with
  | nil => exact absurd rfl h
  | cons b l2 => exact List.getLast?_cons_cons

theorem preNilEq {l : Path} (h : l.IsPrefix []) : l = [] := by
  have := h.length_le
  exact List.length_eq_zero.mp (Nat.le_zero.mp this)

/-- One loop iteration of `walk` preserves the listing specification: the
entry for `name` is emitted first, followed by its own subtree listing, then
the listing of the remaining siblings. -/
theorem loopCons (fs : FSMap) (dir : Path) (rel : Option Path)
    (ign : Option (List String)) (name : String) (rest : List String)
    (sub more : List WalkEntry) (st : Stat)
    (hnd : (name :: rest).Nodup)
    (hign : ∀ ign', ign = some ign' → ∀ n ∈ name :: rest, n ∉ ign')
    (hst : lstatFS fs (dir ++ [name]) = some st)
    (hsubspec : WalkSpec fs (dir ++ [name]) (some (relOf rel name)) ign sub)
    (hmorespec : LoopSpec fs dir rel ign rest more) :
    LoopSpec fs dir rel ign (name :: rest)
      (mkWalkEntry rel dir name st.mtime :: (sub ++ more)) := by
  obtain ⟨hsubA, hsubB⟩ := hsubspec
  obtain ⟨hmoreA, hmoreB⟩ := hmorespec
  have hnamer : name ∉ rest := (List.nodup_cons.mp hnd).1
  constructor
  · -- per-entry specification
    intro e he
    rcases List.mem_cons.mp he with rfl | he
    · refine ⟨name, [], List.mem_cons_self name rest, ?_, rfl, ?_, rfl, ?_, ?_⟩
      · intro hc
        cases hc
      · exact relOf_eq rel name
      · exact ⟨st, hst, rfl⟩
      · intro ign' hig c hc
        rcases List.mem_singleton.mp hc with rfl
        exact hign ign' hig c (List.mem_cons_self c rest)
    · rcases List.mem_append.mp he with hes | hem
      · obtain ⟨suf, hne, habs, hrel, hlast, hstat, hignc⟩ := hsubA e hes
        refine ⟨name, suf, List.mem_cons_self name rest, ?_, ?_, ?_, ?_, hstat, ?_⟩
        · intro hc
          cases hc
        · rw [habs, List.append_assoc]
          rfl
        · rw [hrel]
          show _ = rel.getD [] ++ ([name] ++ suf)
          rw [← List.append_assoc, ← relOf_eq]
          rfl
        · rw [getLast?_cons_of_ne hne]
          exact hlast
        · intro ign' hig c hc
          rcases List.mem_cons.mp hc with rfl | hc
          · exact hign ign' hig c (List.mem_cons_self c rest)
          · exact hignc ign' hig c hc
      · obtain ⟨n, suf2, hn, hspec⟩ := hmoreA e hem
        exact ⟨n, suf2, List.mem_cons_of_mem name hn, hspec⟩
  · -- ordering
    rw [List.pairwise_cons]
    constructor
    · intro x hx
      rcases List.mem_append.mp hx with hes | hem
      · obtain ⟨suf, hne, habs, _, _, _, _⟩ := hsubA x hes
        intro hpre
        rw [habs] at hpre
        simp only [mkWalkEntry_absolute] at hpre
        have hlen := hpre.length_le
        simp only [List.length_append] at hlen
        have hsl : suf.length = 0 := by omega
        exact absurd (List.length_eq_zero.mp hsl) hne
      · obtain ⟨n, suf2, hn, _, habs, _, _, _, _⟩ := hmoreA x hem
        intro hpre
        rw [habs] at hpre
        simp only [mkWalkEntry_absolute] at hpre
        have h2 : (n :: suf2).IsPrefix [name] := (appendPreCancel dir).mp hpre
        obtain ⟨hne2, h3⟩ := consPre.mp h2
        subst hne2
        exact absurd hn hnamer
    · rw [List.pairwise_append]
      refine ⟨hsubB, hmoreB, ?_⟩
      intro a ha b hb
      obtain ⟨sufa, hnea, habsa, _, _, _, _⟩ := hsubA a ha
      obtain ⟨n, suf2, hn, _, habsb, _, _, _, _⟩ := hmoreA b hb
      intro hpre
      rw [habsa, habsb] at hpre
      have habsa2 : (dir ++ [name]) ++ sufa = dir ++ (name :: sufa) := by
        rw [List.append_assoc]
        rfl
      rw [habsa2] at hpre
      have h2 : (n :: suf2).IsPrefix (name :: sufa) := (appendPreCancel dir).mp hpre
      obtain ⟨hne2, _⟩ := consPre.mp h2
      subst hne2
      exact absurd hn hnamer

theorem walkM_zero (fs : FSMap) (dir : Path) (rel : Option Path)
    (ign : Option (List String)) : walkM 0 fs dir rel ign = Except.error WErr.noFuel :=
  rfl

theorem walkM_succ (fuel : Nat) (fs : FSMap) (dir : Path) (rel : Option Path)
    (ign : Option (List String)) :
    walkM (Nat.succ fuel) fs dir rel ign =
      match lstatFS fs dir with
      | none => Except.error (WErr.listFail dir)
      | some st =>
          if st.kind = FKind.dir then
            walkLoop (fun fs2 d2 r2 i2 => walkM fuel fs2 d2 r2 i2)
              fs dir rel ign
              (match ign with
               | some ign' => (readdirFS fs dir).filter (fun n => !decide (n ∈ ign'))
               | none => readdirFS fs dir)
          else Except.error (WErr.listFail dir) :=
  rfl

/-- Correctness of one listing loop, given correctness of the recursive call
used for subdirectories. -/
theorem walkLoop_props
    (wr : FSMap → Path → Option Path → Option (List String) →
      Except WErr (List WalkEntry))
    (hwr : ∀ fs dir rel ign es, (fs.map Prod.fst).Nodup →
      wr fs dir rel ign = Except.ok es → WalkSpec fs dir rel ign es) :
    ∀ (names : List String) (fs : FSMap) (dir : Path) (rel : Option Path)
      (ign : Option (List String)) (es : List WalkEntry),
      (fs.map Prod.fst).Nodup → names.Nodup →
      (∀ ign', ign = some ign' → ∀ n ∈ names, n ∉ ign') →
      walkLoop wr fs dir rel ign names = Except.ok es →
      LoopSpec fs dir rel ign names es := by
  intro names
  induction names with
  | nil =>
      intro fs dir rel ign es _ _ _ h
      have h1 : ([] : List WalkEntry) = es := by injection h
      subst h1
      exact ⟨fun e he => absurd he (List.not_mem_nil e), List.Pairwise.nil⟩
  | cons name rest ihrest =>
      intro fs dir rel ign es hfs hnd hign h
      unfold walkLoop at h
      split at h
      · cases h
      · rename_i st hst
        split at h
        · split at h
          · cases h
          · rename_i sub hsub
            split at h
            · cases h
            · rename_i more hmore
              injection h with h
              subst h
              have hsubspec := hwr fs (dir ++ [name]) (some (relOf rel name))
                ign sub hfs hsub
              have hrest := ihrest fs dir rel ign more hfs (List.nodup_cons.mp hnd).2
                (fun ign' hig n hn => hign ign' hig n (List.mem_cons_of_mem _ hn))
                hmore
              exact loopCons fs dir rel ign name rest sub more st hnd hign hst
                hsubspec hrest
        · split at h
          · cases h
          · rename_i more hmore
            injection h with h
            subst h
            have hrest := ihrest fs dir rel ign more hfs (List.nodup_cons.mp hnd).2
              (fun ign' hig n hn => hign ign' hig n (List.mem_cons_of_mem _ hn))
              hmore
            exact loopCons fs dir rel ign name rest [] more st hnd hign hst
              ⟨fun e he => absurd he (List.not_mem_nil e), List.Pairwise.nil⟩
              hrest

/-- Correctness of `walk`: every returned entry satisfies `EntrySpec` and
the listing is depth-first ordered. -/
theorem walkM_props : ∀ (fuel : Nat) (fs : FSMap) (dir : Path) (rel : Option Path)
    (ign : Option (List String)) (es : List WalkEntry),
    (fs.map Prod.fst).Nodup →
    walkM fuel fs dir rel ign = Except.ok es → WalkSpec fs dir rel ign es := by
  intro fuel
  induction fuel with
  | zero =>
      intro fs dir rel ign es _ h
      rw [walkM_zero] at h
      cases h
  | succ fuel ih =>
      intro fs dir rel ign es hfs h
      cases ign with
      | none =>
          rw [walkM_succ] at h
          split at h
          · cases h
          · rename_i st hst
            split at h
            · obtain ⟨hA, hB⟩ := walkLoop_props
                (fun fs2 d2 r2 i2 => walkM fuel fs2 d2 r2 i2)
                (fun fs2 d2 r2 i2 es2 hk hh => ih fs2 d2 r2 i2 es2 hk hh)
                (readdirFS fs dir) fs dir rel none es hfs
                (readdirFS_nodup fs hfs dir) (fun ign' hig => by cases hig) h
              refine ⟨?_, hB⟩
              intro e he
              obtain ⟨n, suf2, _, hsp⟩ := hA e he
              exact ⟨n :: suf2, hsp⟩
            · cases h
      | some igs =>
          rw [walkM_succ] at h
          split at h
          · cases h
          · rename_i st hst
            split at h
            · have hnodup : ((readdirFS fs dir).filter
                  (fun n => !decide (n ∈ igs))).Nodup :=
                List.Nodup.filter _ (readdirFS_nodup fs hfs dir)
              have hallow : ∀ ign', some igs = some ign' →
                  ∀ n ∈ (readdirFS fs dir).filter (fun n => !decide (n ∈ igs)),
                    n ∉ ign' := by
                intro ign' hig n hn
                injection hig with hig
                subst hig
                have hb := (List.mem_filter.mp hn).2
                rw [Bool.not_eq_true'] at hb
                exact of_decide_eq_false hb
              obtain ⟨hA, hB⟩ := walkLoop_props
                (fun fs2 d2 r2 i2 => walkM fuel fs2 d2 r2 i2)
                (fun fs2 d2 r2 i2 es2 hk hh => ih fs2 d2 r2 i2 es2 hk hh)
                ((readdirFS fs dir).filter (fun n => !decide (n ∈ igs)))
                fs dir rel (some igs) es hfs hnodup hallow h
              refine ⟨?_, hB⟩
              intro e he
              obtain ⟨n, suf2, _, hsp⟩ := hA e he
              exact ⟨n :: suf2, hsp⟩
            · cases h

/-- C9: a successful `walk` over a well-formed mock filesystem returns a
depth-first listing in which every entry's absolute path is the root extended
by its relative path, the base name is the relative path's last component,
the recorded mtime is the entry's stat mtime, no component of any returned
relative path is an ignored base name (so ignored entries are excluded
together with their descendants, at any depth), and no entry is listed before
an ancestor (directories precede their descendants); moreover, when listing
the root fails, the whole call fails with no partial result. -/
theorem walk_spec (fuel : Nat) (fs : FSMap) (dir : Path) (igs : List String)
    (es : List WalkEntry) (hfs : (fs.map Prod.fst).Nodup)
    (h : walkM fuel fs dir none (some igs) = Except.ok es) :
    (∀ e ∈ es, e.absolute = dir ++ e.relative ∧ e.relative ≠ [] ∧
      e.relative.getLast? = some e.basename ∧
      (∃ st, lstatFS fs e.absolute = some st ∧ e.mtime = st.mtime) ∧
      (∀ c ∈ e.relative, c ∉ igs)) ∧
    es.Pairwise noLaterAncestor ∧
    (∀ fuel2 rel2 ign2 es2, ¬(∃ st, lstatFS fs dir = some st ∧ st.kind = FKind.dir) →
      walkM (Nat.succ fuel2) fs dir rel2 ign2 ≠ Except.ok es2) := by
  obtain ⟨hA, hB⟩ := walkM_props fuel fs dir none (some igs) es hfs h
  refine ⟨?_, hB, ?_⟩
  · intro e he
    obtain ⟨suf, hne, habs, hrel, hlast, hstat, hign⟩ := hA e he
    have hrel2 : e.relative = suf := by simpa using hrel
    rw [hrel2]
    exact ⟨habs, hne, hlast, hstat, fun c hc => hign igs rfl c hc⟩
  · intro fuel2 rel2 ign2 es2 hno h2
    rw [walkM_succ] at h2
    split at h2
    · cases h2
    · rename_i st hst
      split at h2
      · rename_i hkind
        exact hno ⟨st, hst, hkind⟩
      · cases h2

/-- Walk fixture: root `r` with a file, an ignored subdirectory holding a
file, and a live subdirectory holding a file. -/
def fsW : FSMap :=
  [(["r"], dirStat), (["r", "a"], fileStat 420 3 5),
   (["r", "node_modules"], dirStat), (["r", "node_modules", "x"], fileStat 1 1 1),
   (["r", "sub"], dirStat), (["r", "sub", "b"], fileStat 2 2 7)]

def wRes : List WalkEntry :=
  match walkM 9 fsW ["r"] none (some ["node_modules"]) with
  | Except.ok es => es
  | Except.error _ => []

theorem c9_witness : wRes.Pairwise noLaterAncestor ∧
    "b" ∉ (["node_modules"] : List String) := by
  have hspec := walk_spec 9 fsW ["r"] ["node_modules"] wRes (by decide) rfl
  refine ⟨hspec.2.1, ?_⟩
  have hmem : mkWalkEntry (some ["sub"]) ["r", "sub"] "b" 7 ∈ wRes := by decide
  exact (hspec.1 _ hmem).2.2.2.2 "b" (by decide)

end YarnFs
